import Mathlib

/-!
Verification of the StakeWatch update pipeline (`src/update.py`).

The Python source is shallowly embedded below: strings are `List Char`
(wrapped in `String` at the interface), Python `set` is `Finset String`,
fallible network calls are `Except String`, and each `re.sub`/`re.search`
call is hand-compiled to an executable matcher that follows the semantics
of the concrete pattern (leftmost scan, greedy/lazy backtracking as the
pattern dictates).  Case-insensitive matching (`re.I`) is modelled as
ASCII case-insensitivity, which is extensionally adequate for the ASCII
pattern literals appearing in the source.
-/

namespace StakeWatch

/-- Python whitespace (`str.isspace`, `str.strip`, and `\s` in `re` for
`str` patterns all use the same Unicode whitespace set). -/
def pyIsSpace (c : Char) : Bool :=
  let n := c.toNat
  (9 ≤ n && n ≤ 13) || (28 ≤ n && n ≤ 31) || n = 32 || n = 133 || n = 160 ||
  n = 5760 || (8192 ≤ n && n ≤ 8202) || n = 8232 || n = 8233 || n = 8239 ||
  n = 8287 || n = 12288

/-- ASCII lower-casing of one character; models `str.lower` and the
case-folding used by `re.I` for the ASCII literals in the source. -/
def pyLowerChar (c : Char) : Char :=
  if 'A' ≤ c ∧ c ≤ 'Z' then Char.ofNat (c.toNat + 32) else c

/-- `w` is a literal prefix of `l`. -/
def litPfx : List Char → List Char → Bool
  | [], _ => true
  | _ :: _, [] => false
  | a :: w, b :: l => a = b && litPfx w l

/-- `w` is a case-insensitive (ASCII) prefix of `l`; models matching a
literal under `re.I`. -/
def ciPfx : List Char → List Char → Bool
  | [], _ => true
  | _ :: _, [] => false
  | a :: w, b :: l => pyLowerChar a = pyLowerChar b && ciPfx w l

/-- `w` occurs as a contiguous substring of `l`; models Python `w in l`. -/
def containsLit (w : List Char) : List Char → Bool
  | [] => litPfx w []
  | c :: r => litPfx w (c :: r) || containsLit w r

/-- Remove leading Python whitespace (`str.lstrip`). -/
def pyStripL (l : List Char) : List Char := l.dropWhile pyIsSpace

/-- Remove trailing Python whitespace (`str.rstrip`). -/
def pyStripR (l : List Char) : List Char := (l.reverse.dropWhile pyIsSpace).reverse

/-- Python `str.strip()`. -/
def pyStrip (l : List Char) : List Char := pyStripR (pyStripL l)

/-- Line-boundary characters of Python `str.splitlines`. -/
def pyIsLineBreak (c : Char) : Bool :=
  let n := c.toNat
  n = 10 || n = 11 || n = 12 || n = 13 || n = 28 || n = 29 || n = 30 ||
  n = 133 || n = 8232 || n = 8233

/-- Python `str.splitlines`: `acc` is the current line, reversed. -/
def pySplitlinesAux : List Char → List Char → List (List Char)
  | [], acc => if acc.isEmpty then [] else [acc.reverse]
  | '\r' :: '\n' :: rest, acc => acc.reverse :: pySplitlinesAux rest []
  | c :: rest, acc =>
    if pyIsLineBreak c then acc.reverse :: pySplitlinesAux rest []
    else pySplitlinesAux rest (c :: acc)

/-- Python `str.splitlines`. -/
def pySplitlines (l : List Char) : List (List Char) := pySplitlinesAux l []

/-- Index of the last `'\n'` in a list, if any. -/
def lastNlIdx : List Char → Option Nat
  | [] => none
  | c :: r =>
    match lastNlIdx r with
    | some p => some (p + 1)
    | none => if c = '\n' then some 0 else none

/-!
## One pass of `re.sub`

A matcher `m s` returns the remainder of `s` after a match at position 0
(`none` when the pattern does not match there).  `reSub` scans left to
right, replacing each leftmost non-overlapping match and continuing after
it, exactly like `re.sub`.  Every matcher below consumes at least one
character on a match (proved in the theorems section); the guard in the
`some` branch only discharges termination and is never false for them.
-/

def reSubF (m : List Char → Option (List Char)) (repl : List Char) :
    Nat → List Char → List Char
  | _, [] => []
  | 0, _ => []
  | fuel + 1, c :: r =>
    match m (c :: r) with
    | some rest =>
      if rest.length < r.length + 1 then repl ++ reSubF m repl fuel rest
      else c :: reSubF m repl fuel r
    | none => c :: reSubF m repl fuel r

/-- One pass of `re.sub`, with the (always sufficient) fuel filled in. -/
def reSub (m : List Char → Option (List Char)) (repl : List Char)
    (s : List Char) : List Char :=
  reSubF m repl s.length s

/-- There is a match of `m` at some position of `s`. -/
def hasPat (m : List Char → Option (List Char)) : List Char → Bool
  | [] => false
  | c :: r => (m (c :: r)).isSome || hasPat m r

/-- Tail of `l` after the earliest case-insensitive occurrence of the
closing tag `</tag>`; models the lazy `.*?</\1>` (with `re.S`, so the
body may span anything). -/
def findClose (tag : List Char) : List Char → Option (List Char)
  | [] => none
  | c :: r =>
    if ciPfx ('<' :: '/' :: (tag ++ ['>'])) (c :: r) then
      some ((c :: r).drop (tag.length + 3))
    else findClose tag r

/-- After `<`, try to match `tag[^>]*>.*?</tag>` case-insensitively:
`[^>]*>` runs to the first `>` (deterministic: `[^>]*` cannot cross a
`>`), then the lazy body ends at the earliest closing tag. -/
def tryOpenTag (tag : List Char) (r : List Char) : Option (List Char) :=
  if ciPfx tag r then
    if '>' ∈ r.drop tag.length then
      findClose tag (((r.drop tag.length).dropWhile (· ≠ '>')).tail)
    else none
  else none

/-- Matcher for `<(script|style)[^>]*>.*?</\1>` under `re.I | re.S`
(alternation tried in pattern order; the backreference closes the same
tag that opened). -/
def mScript : List Char → Option (List Char)
  | [] => none
  | a :: r =>
    if a = '<' then
      match tryOpenTag ['s', 'c', 'r', 'i', 'p', 't'] r with
      | some t => some t
      | none => tryOpenTag ['s', 't', 'y', 'l', 'e'] r
    else none

/-- After `<br` and the greedily skipped whitespace: an optional `/`,
then `>`. -/
def mBrClose : List Char → Option (List Char)
  | [] => none
  | [u] => if u = '>' then some [] else none
  | u :: v :: t2 =>
    if u = '/' then (if v = '>' then some t2 else none)
    else if u = '>' then some (v :: t2) else none

/-- Matcher for `<br\s*/?>` under `re.I`: after `br`, greedily skip
whitespace, then an optional `/`, then `>` (no other backtracking can
succeed since whitespace is neither `/` nor `>`). -/
def mBr : List Char → Option (List Char)
  | a :: x :: y :: rest =>
    if a = '<' ∧ pyLowerChar x = 'b' ∧ pyLowerChar y = 'r' then
      mBrClose (rest.dropWhile pyIsSpace)
    else none
  | _ => none

/-- After `</p` and the greedily skipped whitespace: `>`. -/
def mPCloseEnd : List Char → Option (List Char)
  | [] => none
  | u :: t => if u = '>' then some t else none

/-- Matcher for `</p\s*>` under `re.I`. -/
def mPClose : List Char → Option (List Char)
  | a :: b :: x :: rest =>
    if a = '<' ∧ b = '/' ∧ pyLowerChar x = 'p' then
      mPCloseEnd (rest.dropWhile pyIsSpace)
    else none
  | _ => none

/-- Matcher for `<[^>]+>`: a `<`, at least one non-`>` character, then
the first `>`. -/
def mTag : List Char → Option (List Char)
  | a :: c :: r =>
    if a = '<' ∧ c ≠ '>' ∧ '>' ∈ c :: r then
      some (((c :: r).dropWhile (· ≠ '>')).tail)
    else none
  | _ => none

/-- Matcher for the literal `&nbsp;`. -/
def mNbsp (s : List Char) : Option (List Char) :=
  if litPfx ['&', 'n', 'b', 's', 'p', ';'] s then some (s.drop 6) else none

/-- Matcher for `\s+\n`: greedy `\s+` with backtracking makes the match
run from the first whitespace character to the last `'\n'` inside the
maximal whitespace run, which must lie at index `≥ 1` of the run. -/
def mWsNl : List Char → Option (List Char)
  | [] => none
  | c :: r =>
    if pyIsSpace c then
      match lastNlIdx (r.takeWhile pyIsSpace) with
      | some p => some (r.drop (p + 1))
      | none => none
    else none

/-- Matcher for `\n{3,}`: at least three newlines, matched greedily. -/
def mNl3 : List Char → Option (List Char)
  | [] => none
  | c :: r =>
    if c = '\n' ∧ 2 ≤ (r.takeWhile (· = '\n')).length then
      some (r.drop (r.takeWhile (· = '\n')).length)
    else none

/-- `html_to_text` from the source, on character lists: seven `re.sub`
passes followed by `str.strip()`. -/
def htmlToTextL (l : List Char) : List Char :=
  pyStrip (reSub mNl3 ['\n', '\n'] (reSub mWsNl ['\n'] (reSub mNbsp [' ']
    (reSub mTag [' '] (reSub mPClose ['\n'] (reSub mBr ['\n']
      (reSub mScript [' '] l)))))))

/-- `html_to_text(html)` from the source. -/
def html_to_text (s : String) : String := ⟨htmlToTextL s.data⟩

/-!
## `de_extract_issuer_from_title`

Hand-compiled model of
`re.search(r"Stimmrechte\s*:\s*(.+?)(?:\s+-\s+|\s+\||$)", t)`.
-/

/-- The terminator `(?:\s+-\s+|\s+\||$)` succeeds at `t` (alternatives in
pattern order; which one succeeds does not affect the captured group).
`\s+-\s+` and `\s+\|` are deterministic: `-`/`|` are not whitespace, so
the greedy `\s+` must run to the end of the whitespace run.  `$` without
`re.MULTILINE` matches at the end of the string and also just before a
single trailing newline. -/
def issuerTermAt (t : List Char) : Bool :=
  (!(t.takeWhile pyIsSpace).isEmpty &&
    (match t.dropWhile pyIsSpace with
     | '-' :: v :: _ => pyIsSpace v
     | _ => false)) ||
  (!(t.takeWhile pyIsSpace).isEmpty &&
    (match t.dropWhile pyIsSpace with
     | '|' :: _ => true
     | _ => false)) ||
  t.isEmpty || t = ['\n']

/-- The lazy capture `(.+?)`: extend one non-newline character at a time
and stop at the first point where the terminator succeeds.  `acc` is the
capture so far, reversed. -/
def lazyCap (acc : List Char) : List Char → Option (List Char)
  | [] => none
  | c :: r =>
    if c = '\n' then none
    else if issuerTermAt r then some (c :: acc).reverse
    else lazyCap (c :: acc) r

/-- Backtracking over the extent of the `\s*` before the capture: the
greedy `\s*` is tried longest first; on failure of the lazy capture the
extent shrinks one character at a time (`wsRev` is the not-yet-released
part of the whitespace run, reversed). -/
def issuerExtents : List Char → List Char → Option (List Char)
  | [], field => lazyCap [] field
  | w :: rev, field =>
    match lazyCap [] field with
    | some cap => some cap
    | none => issuerExtents rev (w :: field)

/-- Try the full pattern at position 0 and return the captured group.
`Stimmrechte` is a case-sensitive literal; `\s*:` is deterministic
(`:` is not whitespace). -/
def matchIssuerAt (s : List Char) : Option (List Char) :=
  if litPfx ['S', 't', 'i', 'm', 'm', 'r', 'e', 'c', 'h', 't', 'e'] s then
    match (s.drop 11).dropWhile pyIsSpace with
    | ':' :: r2 => issuerExtents (r2.takeWhile pyIsSpace).reverse (r2.dropWhile pyIsSpace)
    | _ => none
  else none

/-- `re.search`: the match at the leftmost position that succeeds. -/
def searchIssuer : List Char → Option (List Char)
  | [] => none
  | c :: r =>
    match matchIssuerAt (c :: r) with
    | some g => some g
    | none => searchIssuer r

/-- `de_extract_issuer_from_title(title)` from the source:
`(m.group(1).strip() if m else "").strip()`. -/
def de_extract_issuer_from_title (title : String) : String :=
  ⟨pyStrip (match searchIssuer title.data with
    | some g => pyStrip g
    | none => [])⟩

/-!
## `de_parse_percent_new`
-/

/-- A match of `(\d+(?:[.,]\d+)?)\s*%` at position 0: greedy digits, an
optional separator-plus-digits group, optional whitespace, then `%`;
returns the captured group and the remainder after the whole match.  No
other backtracking can succeed: digits, `.`/`,` and whitespace are all
distinct from `%`.  (`\d` is modelled as ASCII digits.) -/
def matchPercAt (s : List Char) : Option (List Char × List Char) :=
  let d1 := s.takeWhile Char.isDigit
  if d1.isEmpty then none
  else
    let r1 := s.drop d1.length
    let gr :=
      match r1 with
      | c :: r' =>
        if c = '.' ∨ c = ',' then
          let d2 := r'.takeWhile Char.isDigit
          if d2.isEmpty then (d1, r1) else (d1 ++ c :: d2, r'.drop d2.length)
        else (d1, r1)
      | [] => (d1, r1)
    match gr.2.dropWhile pyIsSpace with
    | '%' :: t => some (gr.1, t)
    | _ => none

def findallPercF : Nat → List Char → List (List Char)
  | _, [] => []
  | 0, _ => []
  | fuel + 1, c :: r =>
    match matchPercAt (c :: r) with
    | some gt =>
      if gt.2.length < r.length + 1 then gt.1 :: findallPercF fuel gt.2
      else findallPercF fuel r
    | none => findallPercF fuel r

/-- `re.findall` for the percent pattern: captured groups of the
leftmost non-overlapping matches (fuel is always sufficient). -/
def findallPerc (s : List Char) : List (List Char) :=
  findallPercF s.length s

/-- Decimal value of a list of ASCII digits, accumulator style. -/
def digitsValAux (acc : Nat) : List Char → Nat
  | [] => acc
  | c :: r => digitsValAux (acc * 10 + (c.toNat - 48)) r

/-- Python `float(s)` for strings of the shape `\d+(\.\d+)?` — the only
shape reaching it in `de_parse_percent_new` after the comma is replaced
by a dot.  The value is exact (for `d1.d2` it is the integer with digits
`d1 ++ d2` over `10 ^ |d2|`); any other shape raises, modelled as
`none`. -/
def pyFloatQ (s : List Char) : Option ℚ :=
  let d1 := s.takeWhile Char.isDigit
  if d1.isEmpty then none
  else
    match s.drop d1.length with
    | [] => some (mkRat (digitsValAux 0 d1) 1)
    | '.' :: r =>
      let d2 := r.takeWhile Char.isDigit
      if d2.isEmpty ∨ ¬(r.drop d2.length).isEmpty then none
      else some (mkRat (digitsValAux 0 (d1 ++ d2)) (10 ^ d2.length))
    | _ => none

/-- The line loop of `de_parse_percent_new`: on the first line whose
stripped, lower-cased form starts with `"neu "` *and* which contains a
percent match, return the last match (comma turned into a dot) parsed as
a float; a `neu` line without a percent match falls through to later
lines; no qualifying line gives `None`. -/
def dePercGo : List (List Char) → Option ℚ
  | [] => none
  | line :: ls =>
    if litPfx ['n', 'e', 'u', ' '] ((pyStrip line).map pyLowerChar) then
      match (findallPerc line).getLast? with
      | some p => pyFloatQ (p.map (fun c => if c = ',' then '.' else c))
      | none => dePercGo ls
    else dePercGo ls

/-- `de_parse_percent_new(text)` from the source. -/
def de_parse_percent_new (text : String) : Option ℚ :=
  dePercGo (pySplitlines text.data)

/-!
## `de_parse_notifier`

Model of `re.search(r"<label>\s*:\s*(.+)", text)` for the two person
labels: `\s*:` is deterministic; the `\s*` before the greedy `(.+)` is
tried longest first, and `(.+)` takes everything up to the next newline,
needing at least one non-newline character.
-/

/-- Backtracking over the extent of the `\s*` before `(.+)`. -/
def notifierExtents : List Char → List Char → Option (List Char)
  | [], field =>
    match field with
    | c :: _ => if c = '\n' then none else some (field.takeWhile (· ≠ '\n'))
    | [] => none
  | w :: rev, field =>
    match field with
    | c :: _ =>
      if c = '\n' then notifierExtents rev (w :: field)
      else some (field.takeWhile (· ≠ '\n'))
    | [] => notifierExtents rev (w :: field)

/-- Try `<label>\s*:\s*(.+)` at position 0. -/
def matchNotifierAt (label : List Char) (s : List Char) : Option (List Char) :=
  if litPfx label s then
    match (s.drop label.length).dropWhile pyIsSpace with
    | ':' :: r2 => notifierExtents (r2.takeWhile pyIsSpace).reverse (r2.dropWhile pyIsSpace)
    | _ => none
  else none

/-- `re.search` for a person label. -/
def searchNotifier (label : List Char) : List Char → Option (List Char)
  | [] => none
  | c :: r =>
    match matchNotifierAt label (c :: r) with
    | some g => some g
    | none => searchNotifier label r

/-- `de_parse_notifier(text)` from the source: the legal-person label
first, then the natural-person label, group stripped; `""` otherwise. -/
def de_parse_notifier (text : String) : String :=
  match searchNotifier "Juristische Person".data text.data with
  | some g => ⟨pyStrip g⟩
  | none =>
    match searchNotifier "Natürliche Person".data text.data with
    | some g => ⟨pyStrip g⟩
    | none => ""

/-!
## Python float printing
-/

def factCountF : Nat → Nat → Nat → Nat
  | 0, _, _ => 0
  | fuel + 1, p, n =>
    if 2 ≤ p ∧ 1 ≤ n ∧ n % p = 0 then factCountF fuel p (n / p) + 1 else 0

/-- Count of the factor `p` in `n` (for `p ≥ 2`, `n ≥ 1`; `n` itself is
always enough fuel since `n / p < n` at every step). -/
def factCount (p n : Nat) : Nat := factCountF n p n

def natDigitsRevF : Nat → Nat → List Char
  | 0, n => [Char.ofNat (48 + n)]
  | fuel + 1, n =>
    if n < 10 then [Char.ofNat (48 + n)]
    else Char.ofNat (48 + n % 10) :: natDigitsRevF fuel (n / 10)

/-- Decimal digits of a natural number, least significant first. -/
def natDigitsRev (n : Nat) : List Char := natDigitsRevF n n

/-- Decimal digits of a natural number. -/
def natDigits (n : Nat) : List Char := (natDigitsRev n).reverse

/-- Python `str()` of a float whose value is a short nonnegative decimal
— as every value flowing out of `de_parse_percent_new` is.  For such
values `repr` is the shortest round-tripping decimal: the decimal digits
with trailing fractional zeros removed, and integers printed with a
trailing `.0`. -/
def pyFloatRepr (q : ℚ) : String :=
  if q.den = 1 then ⟨natDigits q.num.toNat ++ ['.', '0']⟩
  else
    let e := max (factCount 2 q.den) (factCount 5 q.den)
    let ds := natDigits (q.num.toNat * 10 ^ e / q.den)
    let ds := List.replicate (e + 1 - ds.length) '0' ++ ds
    let frac := ((ds.drop (ds.length - e)).reverse.dropWhile (· = '0')).reverse
    ⟨ds.take (ds.length - e) ++ '.' :: (if frac.isEmpty then ['0'] else frac)⟩

/-!
## Events, the merge step of `main`, and the persisted store
-/

/-- One event dict, with the nine fields of the source in CSV column
order. -/
structure Event where
  time_utc : String
  region : String
  source : String
  event : String
  buyer : String
  target : String
  percent : String
  title : String
  link : String
deriving DecidableEq

/-- `key = item.get("link") or item.get("title")` in `main`: the link,
falling back to the title when the link is empty. -/
def eventKey (e : Event) : String := if e.link = "" then e.title else e.link

/-- The merge loop of `main`: iterate candidates in order; discard a
candidate whose key is empty or already seen, otherwise add the key to
the seen-set and append the candidate to `new_items`. -/
def runMerge (seen : Finset String) : List Event → Finset String × List Event
  | [] => (seen, [])
  | item :: rest =>
    if eventKey item = "" ∨ eventKey item ∈ seen then runMerge seen rest
    else
      ((runMerge (insert (eventKey item) seen) rest).1,
        item :: (runMerge (insert (eventKey item) seen) rest).2)

def MAX_EVENTS : Nat := 2000

/-- Persistent state of `main` across runs: the seen-key set
(`seen.json`, a Python `set`) and the event ledger (`data.json`, newest
first). -/
structure StoreState where
  seen : Finset String
  ledger : List Event
deriving DecidableEq

/-- One run of `main`'s merge-and-truncate step on the collected
candidates: merge against the seen-set, prepend the admitted events to
the ledger when there are any, truncate to `MAX_EVENTS`.  Returns the
new state and the run's `new_items`. -/
def runOnce (st : StoreState) (items : List Event) : StoreState × List Event :=
  let m := runMerge st.seen items
  let events := if m.2.isEmpty then st.ledger else m.2 ++ st.ledger
  (⟨m.1, events.take MAX_EVENTS⟩, m.2)

/-- Iterated runs. -/
def runsFold (st : StoreState) : List (List Event) → StoreState
  | [] => st
  | items :: rest => runsFold (runOnce st items).1 rest

/-- The admitted events of a sequence of runs, concatenated in run
order. -/
def allAdmitted (st : StoreState) : List (List Event) → List Event
  | [] => []
  | items :: rest => (runOnce st items).2 ++ allAdmitted (runOnce st items).1 rest

/-- The three persisted files.  `seen_json` holds the set of keys
recorded in `seen.json` (the file serializes it sorted, which no claim
depends on), `data_json` the ledger, `events_csv` the rows of
`events.csv` (header row, then one row per ledger event). -/
structure FS where
  seen_json : Finset String
  data_json : List Event
  events_csv : List (List String)
deriving DecidableEq

def csvHeader : List String :=
  ["time_utc", "region", "source", "event", "buyer", "target", "percent", "title", "link"]

def csvRow (e : Event) : List String :=
  [e.time_utc, e.region, e.source, e.event, e.buyer, e.target, e.percent, e.title, e.link]

/-- `main()` with the two collector calls abstracted by their outcomes
(`Except.error` mirrors a raised `requests` exception).  Mirrors the
statement order of the source: load state, evaluate
`collect_sec() + collect_de()` (either failure propagates before
anything is written), merge, truncate, then rewrite all three files; on
failure the returned file system is the input one, since no save call
has executed yet. -/
def mainFS (fs : FS) (secRes deRes : Except String (List Event)) :
    FS × Except String (Nat × Nat) :=
  match secRes with
  | .error e => (fs, .error e)
  | .ok sec =>
    match deRes with
    | .error e => (fs, .error e)
    | .ok de =>
      let r := runOnce ⟨fs.seen_json, fs.data_json⟩ (sec ++ de)
      (⟨r.1.seen, r.1.ledger, csvHeader :: r.1.ledger.map csvRow⟩,
        .ok (r.2.length, r.1.ledger.length))

/-!
## `collect_de`
-/

/-- One feed entry as delivered by the feed parser, reduced to title and
link (a missing attribute is already the empty string). -/
structure FeedEntry where
  title : String
  link : String

/-- Outcome of the per-item document fetch: `ok` is `Response.ok`
(status below 400), `text` the decoded body. -/
structure HttpResp where
  ok : Bool
  text : String

/-- The entry loop of `collect_de()`: keep items whose stripped title
contains `"EQS"` and one of `"Stimmrechte"`/`"Stimmrechtsmitteilung"`;
extract the issuer from the title; fetch the linked document — the
source wraps this call in no `try`, so a raised transport error
(`Except.error`) propagates and aborts the whole collector — and on an
ok status extract notifier and percent from the normalized text, on a
non-ok status leave them empty. -/
def collectDeGo (fetchDoc : String → Except String HttpResp) (now : String) :
    List FeedEntry → Except String (List Event)
  | [] => .ok []
  | entry :: rest =>
    let title : String := ⟨pyStrip entry.title.data⟩
    let link : String := ⟨pyStrip entry.link.data⟩
    if ¬ containsLit "EQS".data title.data then collectDeGo fetchDoc now rest
    else if ¬ (containsLit "Stimmrechte".data title.data ∨
        containsLit "Stimmrechtsmitteilung".data title.data) then
      collectDeGo fetchDoc now rest
    else
      match fetchDoc link with
      | .error e => .error e
      | .ok rr =>
        match collectDeGo fetchDoc now rest with
        | .error e => .error e
        | .ok out =>
          .ok ({ time_utc := now, region := "DE", source := "DeutscheBoerseRSS",
                 event := "Stimmrechte",
                 buyer := if rr.ok then de_parse_notifier (html_to_text rr.text) else "",
                 target := de_extract_issuer_from_title title,
                 percent := if rr.ok then
                     (match de_parse_percent_new (html_to_text rr.text) with
                      | some pn => pyFloatRepr pn
                      | none => "")
                   else "",
                 title := title, link := link } :: out)

/-- `collect_de()` from the source, with the primary feed already parsed
into `entries`, the per-item document fetch abstracted as `fetchDoc`,
and the clock as `now`: only the first 120 entries are considered. -/
def collect_de (entries : List FeedEntry) (fetchDoc : String → Except String HttpResp)
    (now : String) : Except String (List Event) :=
  collectDeGo fetchDoc now (entries.take 120)

/-- State invariant maintained by `main`: every ledger event's key is
recorded in the seen-set.  It holds for the fresh state (both files
absent) and is preserved by every run; the spec's claim that truncated
events never reappear rests on it. -/
def LedgerInv (st : StoreState) : Prop := ∀ e ∈ st.ledger, eventKey e ∈ st.seen

/-!
## Concrete fixtures used by the witnesses and counterexamples
-/

def evA : Event :=
  ⟨"t1", "US", "SEC", "8-K", "", "", "", "ACME 8-K", "https://example.org/a"⟩

def evB : Event :=
  ⟨"t1", "US", "SEC", "SC 13D", "", "", "", "ACME 13D", "https://example.org/b"⟩

def evC : Event :=
  ⟨"t2", "DE", "DeutscheBoerseRSS", "Stimmrechte", "", "Foo AG", "",
    "EQS-Stimmrechte: Foo AG", "https://example.org/c"⟩

/-- Filler ledger entry, distinct from the others. -/
def evF : Event :=
  ⟨"t0", "US", "SEC", "8-K", "", "", "", "FILLER", "https://example.org/f"⟩

def evDE : Event :=
  ⟨"t0", "DE", "DeutscheBoerseRSS", "Stimmrechte", "", "Foo AG", "",
    "EQS-Stimmrechte: Foo AG - X", "https://example.org/1"⟩

def entryDE : FeedEntry := ⟨"EQS-Stimmrechte: Foo AG - X", "https://example.org/1"⟩

def fs0 : FS := ⟨∅, [], [csvHeader]⟩

/-- A full store: 2000 filler entries in front of one old event, so the
next run truncates the old event away. -/
def stFull : StoreState :=
  ⟨{"https://example.org/f", "https://example.org/a"}, List.replicate 2000 evF ++ [evA]⟩

/-!
# Theorems

## Generic facts about one `re.sub` pass
-/

theorem listStrongRec {motive : List Char → Prop}
    (h : ∀ s, (∀ t : List Char, t.length < s.length → motive t) → motive s) :
    ∀ s, motive s := by
  have H : ∀ n (s : List Char), s.length ≤ n → motive s := by
    intro n
    induction n with
    | zero =>
      intro s hs
      exact h s (fun t ht => absurd (Nat.lt_of_lt_of_le ht hs) (Nat.not_lt_zero _))
    | succ n ih =>
      intro s hs
      exact h s (fun t ht => ih t (by omega))
  exact fun s => H s.length s (le_refl _)

theorem reSubF_nil (m : List Char → Option (List Char)) (repl : List Char)
    (f : Nat) : reSubF m repl f [] = [] := by
  cases f <;> rfl

theorem reSubF_cons (m : List Char → Option (List Char)) (repl : List Char)
    (f : Nat) (c : Char) (r : List Char) :
    reSubF m repl (f + 1) (c :: r) =
      match m (c :: r) with
      | some rest =>
        if rest.length < r.length + 1 then repl ++ reSubF m repl f rest
        else c :: reSubF m repl f r
      | none => c :: reSubF m repl f r := rfl

theorem reSubF_congr (m : List Char → Option (List Char)) (repl : List Char) :
    ∀ (f1 f2 : Nat) (s : List Char), s.length ≤ f1 → s.length ≤ f2 →
      reSubF m repl f1 s = reSubF m repl f2 s := by
  intro f1
  induction f1 with
  | zero =>
    intro f2 s hs1 _
    have : s = [] := List.length_eq_zero.mp (Nat.le_antisymm hs1 (Nat.zero_le _))
    subst this
    rw [reSubF_nil, reSubF_nil]
  | succ f1 ih =>
    intro f2 s hs1 hs2
    cases s with
    | nil => rw [reSubF_nil, reSubF_nil]
    | cons c r =>
      cases f2 with
      | zero => simp at hs2
      | succ f2 =>
        rw [reSubF_cons, reSubF_cons]
        simp only [List.length_cons] at hs1 hs2
        cases hm : m (c :: r) with
        | some rest =>
          by_cases hlt : rest.length < r.length + 1
          · simp only [hlt, if_true]
            rw [ih f2 rest (by omega) (by omega)]
          · simp only [hlt, if_false]
            rw [ih f2 r (by omega) (by omega)]
        | none =>
          rw [ih f2 r (by omega) (by omega)]

theorem reSub_nil (m : List Char → Option (List Char)) (repl : List Char) :
    reSub m repl [] = [] := rfl

theorem reSub_cons_some {m : List Char → Option (List Char)} {repl : List Char}
    {c : Char} {r rest : List Char} (h : m (c :: r) = some rest)
    (hlt : rest.length < r.length + 1) :
    reSub m repl (c :: r) = repl ++ reSub m repl rest := by
  show reSubF m repl (c :: r).length (c :: r) = _
  rw [List.length_cons, reSubF_cons, h]
  simp only [hlt, if_true]
  congr 1
  exact reSubF_congr m repl r.length rest.length rest (by omega) (le_refl _)

theorem reSub_cons_none {m : List Char → Option (List Char)} {repl : List Char}
    {c : Char} {r : List Char} (h : m (c :: r) = none) :
    reSub m repl (c :: r) = c :: reSub m repl r := by
  show reSubF m repl (c :: r).length (c :: r) = _
  rw [List.length_cons, reSubF_cons, h]
  rfl

theorem hasPat_nil (m : List Char → Option (List Char)) : hasPat m [] = false := rfl

theorem hasPat_cons (m : List Char → Option (List Char)) (c : Char) (r : List Char) :
    hasPat m (c :: r) = ((m (c :: r)).isSome || hasPat m r) := rfl

/-- A pass over a pattern-free text is the identity. -/
theorem reSub_of_not_hasPat {m : List Char → Option (List Char)} (repl : List Char)
    {s : List Char} (h : hasPat m s = false) : reSub m repl s = s := by
  induction s with
  | nil => exact reSub_nil m repl
  | cons c r ih =>
    rw [hasPat_cons, Bool.or_eq_false_iff] at h
    have hm : m (c :: r) = none := by
      cases hm : m (c :: r) with
      | some rest => rw [hm] at h; simp at h
      | none => rfl
    rw [reSub_cons_none hm, ih h.2]

/-- If no match of `b` is ever a match of `a`, text without `a`-matches
has no `b`-matches either. -/
theorem hasPat_of_hasPat {a b : List Char → Option (List Char)}
    (himp : ∀ l, (b l).isSome → (a l).isSome) :
    ∀ s, hasPat b s → hasPat a s := by
  intro s
  induction s with
  | nil => simp [hasPat_nil]
  | cons c r ih =>
    rw [hasPat_cons, hasPat_cons]
    intro h
    rcases Bool.or_eq_true_iff.mp h with h | h
    · exact Bool.or_eq_true_iff.mpr (Or.inl (himp _ h))
    · exact Bool.or_eq_true_iff.mpr (Or.inr (ih h))

/-- A match somewhere in a suffix is a match somewhere in the whole. -/
theorem hasPat_append_left (m : List Char → Option (List Char)) :
    ∀ (a t : List Char), hasPat m t → hasPat m (a ++ t) := by
  intro a t h
  induction a with
  | nil => simpa using h
  | cons c a ih =>
    rw [List.cons_append, hasPat_cons]
    exact Bool.or_eq_true_iff.mpr (Or.inr ih)

theorem hasPat_drop {m : List Char → Option (List Char)} :
    ∀ (n : Nat) (s : List Char), hasPat m (s.drop n) → hasPat m s := by
  intro n s h
  have := hasPat_append_left m (s.take n) (s.drop n) h
  rwa [List.take_append_drop] at this

/-- A match somewhere in a prefix is a match somewhere in the whole,
provided matches of `m` survive extending the text on the right. -/
theorem hasPat_append_right {m : List Char → Option (List Char)}
    (hmono : ∀ l b, (m l).isSome → (m (l ++ b)).isSome) :
    ∀ (a b : List Char), hasPat m a → hasPat m (a ++ b) := by
  intro a b h
  induction a with
  | nil => simp [hasPat_nil] at h
  | cons c r ih =>
    rw [hasPat_cons] at h
    rw [List.cons_append, hasPat_cons]
    rcases Bool.or_eq_true_iff.mp h with h | h
    · exact Bool.or_eq_true_iff.mpr (Or.inl (by rw [← List.cons_append]; exact hmono _ b h))
    · exact Bool.or_eq_true_iff.mpr (Or.inr (ih h))

/-- Characters of a pass output come from the text or the replacement. -/
theorem mem_reSub {m : List Char → Option (List Char)} {repl : List Char}
    (hsub : ∀ s t, m s = some t → ∀ x, x ∈ t → x ∈ s) :
    ∀ s x, x ∈ reSub m repl s → x ∈ s ∨ x ∈ repl := by
  refine listStrongRec (fun s ih => ?_)
  intro x hx
  cases s with
  | nil => rw [reSub_nil] at hx; simp at hx
  | cons c r =>
    cases hm : m (c :: r) with
    | some rest =>
      by_cases hlt : rest.length < r.length + 1
      · rw [reSub_cons_some hm hlt] at hx
        rcases List.mem_append.mp hx with hx | hx
        · exact Or.inr hx
        · rcases ih rest (by simpa using hlt) x hx with hx | hx
          · exact Or.inl (hsub _ _ hm x hx)
          · exact Or.inr hx
      · -- unreachable for well-behaved matchers, but provable anyway
        have : reSub m repl (c :: r) = c :: reSub m repl r := by
          show reSubF m repl (c :: r).length (c :: r) = _
          rw [List.length_cons, reSubF_cons, hm]
          simp only [hlt, if_false]
          rfl
        rw [this] at hx
        rcases List.mem_cons.mp hx with hx | hx
        · exact Or.inl (hx ▸ List.mem_cons_self c r)
        · rcases ih r (by simp) x hx with hx | hx
          · exact Or.inl (List.mem_cons_of_mem c hx)
          · exact Or.inr hx
    | none =>
      rw [reSub_cons_none hm] at hx
      rcases List.mem_cons.mp hx with hx | hx
      · exact Or.inl (hx ▸ List.mem_cons_self c r)
      · rcases ih r (by simp) x hx with hx | hx
        · exact Or.inl (List.mem_cons_of_mem c hx)
        · exact Or.inr hx

/-!
## Shape facts about the individual matchers
-/

theorem litPfx_length : ∀ {w l : List Char}, litPfx w l = true → w.length ≤ l.length := by
  intro w
  induction w with
  | nil => intro l _; simp
  | cons a w ih =>
    intro l h
    cases l with
    | nil => simp [litPfx] at h
    | cons b l =>
      simp only [litPfx, Bool.and_eq_true] at h
      simpa using ih h.2

theorem ciPfx_length : ∀ {w l : List Char}, ciPfx w l = true → w.length ≤ l.length := by
  intro w
  induction w with
  | nil => intro l _; simp
  | cons a w ih =>
    intro l h
    cases l with
    | nil => simp [ciPfx] at h
    | cons b l =>
      simp only [ciPfx, Bool.and_eq_true] at h
      simpa using ih h.2

theorem findClose_strict (tag : List Char) :
    ∀ {l t : List Char}, findClose tag l = some t → t.length < l.length := by
  intro l
  induction l with
  | nil => intro t h; simp [findClose] at h
  | cons c r ih =>
    intro t h
    rw [findClose] at h
    split at h
    · injection h with h
      subst h
      rw [List.length_drop]
      simp only [List.length_cons]
      omega
    · exact Nat.lt_succ_of_lt (ih h)

theorem findClose_subset (tag : List Char) :
    ∀ {l t : List Char}, findClose tag l = some t → ∀ x, x ∈ t → x ∈ l := by
  intro l
  induction l with
  | nil => intro t h; simp [findClose] at h
  | cons c r ih =>
    intro t h
    rw [findClose] at h
    split at h
    · injection h with h
      subst h
      exact fun x hx => (List.drop_sublist _ _).subset hx
    · exact fun x hx => List.mem_cons_of_mem c (ih h x hx)

theorem tryOpenTag_strict {tag r t : List Char} (h : tryOpenTag tag r = some t) :
    t.length < r.length := by
  unfold tryOpenTag at h
  split at h
  · split at h
    · have h1 := findClose_strict tag h
      have h2 : (((r.drop tag.length).dropWhile (· ≠ '>')).tail).length ≤ r.length := by
        have a1 := List.length_tail ((r.drop tag.length).dropWhile (· ≠ '>'))
        have a2 := (List.dropWhile_sublist (l := r.drop tag.length) (· ≠ '>')).length_le
        have a3 := List.length_drop tag.length r
        omega
      omega
    · cases h
  · cases h

theorem tryOpenTag_subset {tag r t : List Char} (h : tryOpenTag tag r = some t) :
    ∀ x, x ∈ t → x ∈ r := by
  unfold tryOpenTag at h
  split at h
  · split at h
    · intro x hx
      have h1 := findClose_subset tag h x hx
      have h2 : List.Sublist (((r.drop tag.length).dropWhile (· ≠ '>')).tail) r :=
        ((List.tail_sublist _).trans (List.dropWhile_sublist _)).trans (List.drop_sublist _ _)
      exact h2.subset h1
    · cases h
  · cases h

theorem mScript_strict {s t : List Char} (h : mScript s = some t) : t.length < s.length := by
  match s with
  | [] => simp [mScript] at h
  | a :: r =>
    rw [mScript] at h
    split at h
    · split at h
      · next heq =>
        injection h with h
        subst h
        exact Nat.lt_succ_of_lt (tryOpenTag_strict heq)
      · exact Nat.lt_succ_of_lt (tryOpenTag_strict h)
    · cases h

theorem mScript_subset {s t : List Char} (h : mScript s = some t) :
    ∀ x, x ∈ t → x ∈ s := by
  match s with
  | [] => simp [mScript] at h
  | a :: r =>
    rw [mScript] at h
    split at h
    · split at h
      · next heq =>
        injection h with h
        subst h
        exact fun x hx => List.mem_cons_of_mem a (tryOpenTag_subset heq x hx)
      · exact fun x hx => List.mem_cons_of_mem a (tryOpenTag_subset h x hx)
    · cases h

theorem mBrClose_strict {l t : List Char} (h : mBrClose l = some t) : t.length < l.length := by
  match l with
  | [] => simp [mBrClose] at h
  | [u] =>
    rw [mBrClose] at h
    split at h
    · injection h with h; subst h; simp
    · cases h
  | u :: v :: t2 =>
    rw [mBrClose] at h
    split at h
    · split at h
      · injection h with h; subst h; simp only [List.length_cons]; omega
      · cases h
    · split at h
      · injection h with h; subst h; simp only [List.length_cons]; omega
      · cases h

theorem mBrClose_subset {l t : List Char} (h : mBrClose l = some t) : ∀ x, x ∈ t → x ∈ l := by
  match l with
  | [] => simp [mBrClose] at h
  | [u] =>
    rw [mBrClose] at h
    split at h
    · injection h with h; subst h; simp
    · cases h
  | u :: v :: t2 =>
    rw [mBrClose] at h
    split at h
    · split at h
      · injection h with h; subst h
        intro z hz; simp [hz]
      · cases h
    · split at h
      · injection h with h; subst h
        intro z hz; simp [hz]
      · cases h

theorem mBr_strict {s t : List Char} (h : mBr s = some t) : t.length < s.length := by
  match s with
  | [] => simp [mBr] at h
  | [a] => simp [mBr] at h
  | [a, b] => simp [mBr] at h
  | a :: x :: y :: rest =>
    rw [mBr] at h
    split at h
    · have h1 := mBrClose_strict h
      have h2 := (List.dropWhile_sublist (l := rest) pyIsSpace).length_le
      simp only [List.length_cons]
      omega
    · cases h

theorem mBr_subset {s t : List Char} (h : mBr s = some t) : ∀ x, x ∈ t → x ∈ s := by
  match s with
  | [] => simp [mBr] at h
  | [a] => simp [mBr] at h
  | [a, b] => simp [mBr] at h
  | a :: x :: y :: rest =>
    rw [mBr] at h
    split at h
    · intro z hz
      have h1 := mBrClose_subset h z hz
      have h2 := (List.dropWhile_sublist (l := rest) pyIsSpace).subset h1
      simp [h2]
    · cases h

theorem mPCloseEnd_strict {l t : List Char} (h : mPCloseEnd l = some t) :
    t.length < l.length := by
  match l with
  | [] => simp [mPCloseEnd] at h
  | u :: t' =>
    rw [mPCloseEnd] at h
    split at h
    · injection h with h; subst h; simp
    · cases h

theorem mPCloseEnd_subset {l t : List Char} (h : mPCloseEnd l = some t) :
    ∀ x, x ∈ t → x ∈ l := by
  match l with
  | [] => simp [mPCloseEnd] at h
  | u :: t' =>
    rw [mPCloseEnd] at h
    split at h
    · injection h with h; subst h
      intro z hz; simp [hz]
    · cases h

theorem mPClose_strict {s t : List Char} (h : mPClose s = some t) : t.length < s.length := by
  match s with
  | [] => simp [mPClose] at h
  | [a] => simp [mPClose] at h
  | [a, b] => simp [mPClose] at h
  | a :: b :: x :: rest =>
    rw [mPClose] at h
    split at h
    · have h1 := mPCloseEnd_strict h
      have h2 := (List.dropWhile_sublist (l := rest) pyIsSpace).length_le
      simp only [List.length_cons]
      omega
    · cases h

theorem mPClose_subset {s t : List Char} (h : mPClose s = some t) : ∀ x, x ∈ t → x ∈ s := by
  match s with
  | [] => simp [mPClose] at h
  | [a] => simp [mPClose] at h
  | [a, b] => simp [mPClose] at h
  | a :: b :: x :: rest =>
    rw [mPClose] at h
    split at h
    · intro z hz
      have h1 := mPCloseEnd_subset h z hz
      have h2 := (List.dropWhile_sublist (l := rest) pyIsSpace).subset h1
      simp [h2]
    · cases h

theorem mTag_strict {s t : List Char} (h : mTag s = some t) : t.length < s.length := by
  match s with
  | [] => simp [mTag] at h
  | [a] => simp [mTag] at h
  | a :: c :: r =>
    rw [mTag] at h
    split at h
    · injection h with h
      subst h
      have a1 := List.length_tail ((c :: r).dropWhile (· ≠ '>'))
      have a2 := (List.dropWhile_sublist (l := c :: r) (· ≠ '>')).length_le
      simp only [List.length_cons] at a2 ⊢
      omega
    · cases h

theorem mTag_subset {s t : List Char} (h : mTag s = some t) : ∀ x, x ∈ t → x ∈ s := by
  match s with
  | [] => simp [mTag] at h
  | [a] => simp [mTag] at h
  | a :: c :: r =>
    rw [mTag] at h
    split at h
    · injection h with h
      subst h
      intro z hz
      have h2 : List.Sublist (((c :: r).dropWhile (· ≠ '>')).tail) (c :: r) :=
        (List.tail_sublist _).trans (List.dropWhile_sublist _)
      exact List.mem_cons_of_mem a (h2.subset hz)
    · cases h

theorem mNbsp_strict {s t : List Char} (h : mNbsp s = some t) : t.length < s.length := by
  unfold mNbsp at h
  split at h
  · next hp =>
    injection h with h
    subst h
    have h6 : 6 ≤ s.length := litPfx_length hp
    rw [List.length_drop]
    omega
  · cases h

theorem mNbsp_subset {s t : List Char} (h : mNbsp s = some t) : ∀ x, x ∈ t → x ∈ s := by
  unfold mNbsp at h
  split at h
  · injection h with h
    subst h
    exact fun x hx => (List.drop_sublist _ _).subset hx
  · cases h

theorem mWsNl_strict {s t : List Char} (h : mWsNl s = some t) : t.length < s.length := by
  match s with
  | [] => simp [mWsNl] at h
  | c :: r =>
    rw [mWsNl] at h
    split at h
    · split at h
      · injection h with h
        subst h
        rw [List.length_drop]
        simp only [List.length_cons]
        omega
      · cases h
    · cases h

theorem mWsNl_subset {s t : List Char} (h : mWsNl s = some t) : ∀ x, x ∈ t → x ∈ s := by
  match s with
  | [] => simp [mWsNl] at h
  | c :: r =>
    rw [mWsNl] at h
    split at h
    · split at h
      · injection h with h
        subst h
        exact fun x hx => List.mem_cons_of_mem c ((List.drop_sublist _ _).subset hx)
      · cases h
    · cases h

theorem mNl3_strict {s t : List Char} (h : mNl3 s = some t) : t.length < s.length := by
  match s with
  | [] => simp [mNl3] at h
  | c :: r =>
    rw [mNl3] at h
    split at h
    · injection h with h
      subst h
      rw [List.length_drop]
      simp only [List.length_cons]
      omega
    · cases h

theorem mNl3_subset {s t : List Char} (h : mNl3 s = some t) : ∀ x, x ∈ t → x ∈ s := by
  match s with
  | [] => simp [mNl3] at h
  | c :: r =>
    rw [mNl3] at h
    split at h
    · injection h with h
      subst h
      exact fun x hx => List.mem_cons_of_mem c ((List.drop_sublist _ _).subset hx)
    · cases h

/-!
## Whitespace and literal helpers
-/

theorem litPfx_nil_right {w : List Char} (h : litPfx w [] = true) : w = [] := by
  cases w with
  | nil => rfl
  | cons a w => simp [litPfx] at h

theorem litPfx_append {w l b : List Char} (h : litPfx w l = true) :
    litPfx w (l ++ b) = true := by
  induction w generalizing l with
  | nil => rfl
  | cons a w ih =>
    cases l with
    | nil => simp [litPfx] at h
    | cons c l =>
      rw [List.cons_append]
      simp only [litPfx, Bool.and_eq_true] at h ⊢
      exact ⟨h.1, ih h.2⟩

theorem mem_takeWhile_append {p : Char → Bool} {x : Char} {r b : List Char}
    (h : x ∈ r.takeWhile p) : x ∈ (r ++ b).takeWhile p := by
  induction r with
  | nil => simp [List.takeWhile] at h
  | cons c r ih =>
    rw [List.takeWhile_cons] at h
    by_cases hc : p c
    · rw [List.cons_append, List.takeWhile_cons, if_pos hc]
      rw [if_pos hc] at h
      rcases List.mem_cons.mp h with h | h
      · simp [h]
      · exact List.mem_cons_of_mem c (ih h)
    · rw [if_neg hc] at h
      simp at h

theorem takeWhile_append_all {p : Char → Bool} {a : List Char} (b : List Char)
    (h : ∀ x ∈ a, p x = true) : (a ++ b).takeWhile p = a ++ b.takeWhile p := by
  induction a with
  | nil => simp
  | cons c a ih =>
    rw [List.cons_append, List.takeWhile_cons, if_pos (h c (List.mem_cons_self c a))]
    rw [ih (fun x hx => h x (List.mem_cons_of_mem c hx))]
    rfl

theorem takeWhile_dropWhile_nil (p : Char → Bool) (l : List Char) :
    (l.dropWhile p).takeWhile p = [] := by
  induction l with
  | nil => rfl
  | cons c r ih =>
    rw [List.dropWhile_cons]
    by_cases hc : p c
    · rw [if_pos hc]; exact ih
    · rw [if_neg hc, List.takeWhile_cons, if_neg hc]

theorem lastNlIdx_isSome_iff {l : List Char} :
    (lastNlIdx l).isSome = true ↔ '\n' ∈ l := by
  induction l with
  | nil => simp [lastNlIdx]
  | cons c r ih =>
    rw [lastNlIdx]
    cases hr : lastNlIdx r with
    | some p =>
      simp only [Option.isSome_some, true_iff]
      exact List.mem_cons_of_mem c (ih.mp (by rw [hr]; rfl))
    | none =>
      rw [hr] at ih
      simp only [Option.isSome_none, Bool.false_eq_true, false_iff] at ih
      by_cases hc : c = '\n'
      · simp [hc]
      · simp only [hc, if_false, Option.isSome_none, Bool.false_eq_true, false_iff]
        intro hmem
        rcases List.mem_cons.mp hmem with h | h
        · exact hc h.symm
        · exact ih h

theorem lastNlIdx_lt {l : List Char} {p : Nat} (h : lastNlIdx l = some p) :
    p < l.length := by
  induction l generalizing p with
  | nil => simp [lastNlIdx] at h
  | cons c r ih =>
    cases hr : lastNlIdx r with
    | some q =>
      simp only [lastNlIdx, hr] at h
      injection h with h
      subst h
      simpa using ih hr
    | none =>
      simp only [lastNlIdx, hr] at h
      split at h
      · injection h with h; subst h; simp
      · cases h

theorem lastNlIdx_drop {l : List Char} {p : Nat} (h : lastNlIdx l = some p) :
    '\n' ∉ l.drop (p + 1) := by
  induction l generalizing p with
  | nil => simp [lastNlIdx] at h
  | cons c r ih =>
    cases hr : lastNlIdx r with
    | some q =>
      simp only [lastNlIdx, hr] at h
      injection h with h
      subst h
      rw [List.drop_succ_cons]
      exact ih hr
    | none =>
      simp only [lastNlIdx, hr] at h
      split at h
      · injection h with h
        subst h
        rw [List.drop_succ_cons, List.drop_zero]
        intro hmem
        have hs : (lastNlIdx r).isSome = true := lastNlIdx_isSome_iff.mpr hmem
        rw [hr] at hs
        cases hs
      · cases h

/-!
## `str.strip` helpers
-/

theorem pyStripR_pfx (u : List Char) :
    pyStripR u ++ (u.reverse.takeWhile pyIsSpace).reverse = u := by
  unfold pyStripR
  rw [← List.reverse_append, List.takeWhile_append_dropWhile, List.reverse_reverse]

theorem pyStripR_head (c : Char) (u : List Char) :
    pyStripR (c :: u) = [] ∨ ∃ w, pyStripR (c :: u) = c :: w := by
  cases hv : pyStripR (c :: u) with
  | nil => exact Or.inl rfl
  | cons d w =>
    refine Or.inr ⟨w, ?_⟩
    have hp := pyStripR_pfx (c :: u)
    rw [hv] at hp
    rw [List.cons_append] at hp
    injection hp with h1 _
    rw [h1]

theorem dropWhile_head_not {p : Char → Bool} {l : List Char} {c : Char} {r : List Char}
    (h : l.dropWhile p = c :: r) : p c = false := by
  induction l with
  | nil => simp [List.dropWhile] at h
  | cons a l ih =>
    rw [List.dropWhile_cons] at h
    by_cases ha : p a
    · rw [if_pos ha] at h; exact ih h
    · rw [if_neg ha] at h
      injection h with h1 _
      subst h1
      simpa using ha

theorem pyStripR_idem (u : List Char) : pyStripR (pyStripR u) = pyStripR u := by
  unfold pyStripR
  rw [List.reverse_reverse, List.dropWhile_idempotent]

theorem pyStrip_idem (l : List Char) : pyStrip (pyStrip l) = pyStrip l := by
  unfold pyStrip
  have h1 : pyStripL (pyStripR (pyStripL l)) = pyStripR (pyStripL l) := by
    cases hu : pyStripL l with
    | nil =>
      unfold pyStripR
      simp [pyStripL]
    | cons c u =>
      have hc : pyIsSpace c = false := dropWhile_head_not hu
      rcases pyStripR_head c u with hv | ⟨w, hv⟩
      · rw [hv]; rfl
      · rw [hv]
        unfold pyStripL
        rw [List.dropWhile_cons, if_neg (by simp [hc])]
  rw [h1, pyStripR_idem]

/-!
## Implications between the matchers

`mScript`, `mBr` and `mPClose` matches are in particular `mTag` matches,
and an `mNl3` match is in particular an `mWsNl` match: this is what makes
the later passes of the pipeline idempotent.
-/

theorem mTag_isSome_of {b : Char} {r2 : List Char} (hb : b ≠ '>') (hmem : '>' ∈ b :: r2) :
    (mTag ('<' :: b :: r2)).isSome = true := by
  rw [mTag, if_pos ⟨rfl, hb, hmem⟩]
  rfl

theorem tryOpenTag_facts {tag r t : List Char} (h : tryOpenTag tag r = some t) :
    ciPfx tag r = true ∧ '>' ∈ r.drop tag.length := by
  unfold tryOpenTag at h
  split at h
  · split at h
    · exact ⟨by assumption, by assumption⟩
    · cases h
  · cases h

theorem ciPfx_cons {a : Char} {w l : List Char} (h : ciPfx (a :: w) l = true) :
    ∃ b r, l = b :: r ∧ pyLowerChar a = pyLowerChar b := by
  cases l with
  | nil => simp [ciPfx] at h
  | cons b r =>
    simp only [ciPfx, Bool.and_eq_true, decide_eq_true_eq] at h
    exact ⟨b, r, rfl, h.1⟩

theorem mScript_imp_mTag {l : List Char} (h : (mScript l).isSome = true) :
    (mTag l).isSome = true := by
  cases l with
  | nil => simp [mScript] at h
  | cons a r =>
    rw [mScript] at h
    split at h
    · next ha =>
      subst ha
      have key : ∀ (w tag : List Char) t, pyLowerChar w.headI = 's' → w ≠ [] →
          tryOpenTag w r = some t → w = tag → (mTag ('<' :: r)).isSome = true := by
        intro w tag t hw hne htag _
        obtain ⟨hci, hgt⟩ := tryOpenTag_facts htag
        cases w with
        | nil => exact absurd rfl hne
        | cons w0 ws =>
          obtain ⟨b, r2, hr, hlow⟩ := ciPfx_cons hci
          subst hr
          have hb : b ≠ '>' := by
            intro hbe
            subst hbe
            rw [List.headI] at hw
            rw [hw] at hlow
            simp [pyLowerChar] at hlow
          have hmem : '>' ∈ b :: r2 := (List.drop_sublist _ _).subset hgt
          exact mTag_isSome_of hb hmem
      cases h1 : tryOpenTag ['s', 'c', 'r', 'i', 'p', 't'] r with
      | some t => exact key _ _ t (by decide) (by decide) h1 rfl
      | none =>
        rw [h1] at h
        cases h2 : tryOpenTag ['s', 't', 'y', 'l', 'e'] r with
        | some t => exact key _ _ t (by decide) (by decide) h2 rfl
        | none => rw [h2] at h; simp at h
    · simp at h

theorem mBrClose_gt_mem {l t : List Char} (h : mBrClose l = some t) : '>' ∈ l := by
  match l with
  | [] => simp [mBrClose] at h
  | [u] =>
    rw [mBrClose] at h
    split at h
    · next hu => simp [hu]
    · cases h
  | u :: v :: t2 =>
    rw [mBrClose] at h
    split at h
    · split at h
      · next hv => simp [hv]
      · cases h
    · split at h
      · next hu => simp [hu]
      · cases h

theorem mPCloseEnd_gt_mem {l t : List Char} (h : mPCloseEnd l = some t) : '>' ∈ l := by
  match l with
  | [] => simp [mPCloseEnd] at h
  | u :: t' =>
    rw [mPCloseEnd] at h
    split at h
    · next hu => simp [hu]
    · cases h

theorem mBr_imp_mTag {l : List Char} (h : (mBr l).isSome = true) :
    (mTag l).isSome = true := by
  match l with
  | [] => simp [mBr] at h
  | [a] => simp [mBr] at h
  | [a, b] => simp [mBr] at h
  | a :: x :: y :: rest =>
    rw [mBr] at h
    split at h
    · next hc =>
      obtain ⟨ha, hx, _⟩ := hc
      subst ha
      obtain ⟨t, ht⟩ := Option.isSome_iff_exists.mp h
      have hgt : '>' ∈ x :: y :: rest := by
        have h1 := mBrClose_gt_mem ht
        have h2 := (List.dropWhile_sublist (l := rest) pyIsSpace).subset h1
        simp [h2]
      have hxne : x ≠ '>' := by
        intro hxe
        subst hxe
        simp [pyLowerChar] at hx
      exact mTag_isSome_of hxne hgt
    · simp at h

theorem mPClose_imp_mTag {l : List Char} (h : (mPClose l).isSome = true) :
    (mTag l).isSome = true := by
  match l with
  | [] => simp [mPClose] at h
  | [a] => simp [mPClose] at h
  | [a, b] => simp [mPClose] at h
  | a :: b :: x :: rest =>
    rw [mPClose] at h
    split at h
    · next hc =>
      obtain ⟨ha, hb, _⟩ := hc
      subst ha
      subst hb
      obtain ⟨t, ht⟩ := Option.isSome_iff_exists.mp h
      have hgt : '>' ∈ '/' :: x :: rest := by
        have h1 := mPCloseEnd_gt_mem ht
        have h2 := (List.dropWhile_sublist (l := rest) pyIsSpace).subset h1
        simp [h2]
      exact mTag_isSome_of (by decide) hgt
    · simp at h

theorem mNl3_imp_mWsNl {l : List Char} (h : (mNl3 l).isSome = true) :
    (mWsNl l).isSome = true := by
  match l with
  | [] => simp [mNl3] at h
  | c :: r =>
    rw [mNl3] at h
    split at h
    · next hc =>
      obtain ⟨hc1, hc2⟩ := hc
      subst hc1
      have hmem : '\n' ∈ r.takeWhile pyIsSpace := by
        cases r with
        | nil => simp [List.takeWhile] at hc2
        | cons d r' =>
          rw [List.takeWhile_cons] at hc2
          by_cases hd : d = '\n'
          · subst hd
            rw [List.takeWhile_cons, if_pos (by decide)]
            exact List.mem_cons_self _ _
          · rw [if_neg (by simpa using hd)] at hc2
            simp at hc2
      rw [mWsNl, if_pos (by decide)]
      cases hli : lastNlIdx (r.takeWhile pyIsSpace) with
      | some p => rfl
      | none =>
        have := lastNlIdx_isSome_iff.mpr hmem
        rw [hli] at this
        cases this
    · simp at h

/-!
## Right-extension monotonicity of the matchers that survive `strip`
-/

theorem mTag_mono (l b : List Char) (h : (mTag l).isSome = true) :
    (mTag (l ++ b)).isSome = true := by
  match l with
  | [] => simp [mTag] at h
  | [a] => simp [mTag] at h
  | a :: c :: r =>
    rw [mTag] at h
    split at h
    · next hc =>
      obtain ⟨h1, h2, h3⟩ := hc
      subst h1
      rw [List.cons_append, List.cons_append]
      refine mTag_isSome_of h2 ?_
      rw [← List.cons_append]
      exact List.mem_append_left b h3
    · simp at h

theorem mNbsp_mono (l b : List Char) (h : (mNbsp l).isSome = true) :
    (mNbsp (l ++ b)).isSome = true := by
  unfold mNbsp at h ⊢
  split at h
  · next hp => rw [if_pos (litPfx_append hp)]; rfl
  · simp at h

theorem mWsNl_mono (l b : List Char) (h : (mWsNl l).isSome = true) :
    (mWsNl (l ++ b)).isSome = true := by
  match l with
  | [] => simp [mWsNl] at h
  | c :: r =>
    rw [mWsNl] at h
    split at h
    · next hc =>
      cases hli : lastNlIdx (r.takeWhile pyIsSpace) with
      | some p =>
        have hmem : '\n' ∈ r.takeWhile pyIsSpace :=
          lastNlIdx_isSome_iff.mp (by rw [hli]; rfl)
        have hmem2 : '\n' ∈ (r ++ b).takeWhile pyIsSpace := mem_takeWhile_append hmem
        rw [List.cons_append, mWsNl, if_pos hc]
        cases hli2 : lastNlIdx ((r ++ b).takeWhile pyIsSpace) with
        | some q => rfl
        | none =>
          have := lastNlIdx_isSome_iff.mpr hmem2
          rw [hli2] at this
          cases this
      | none => rw [hli] at h; cases h
    · cases h

/-- If matches of `m` survive right extension, a match in the stripped
text is a match in the text. -/
theorem hasPat_pyStrip {m : List Char → Option (List Char)}
    (hmono : ∀ l b, (m l).isSome = true → (m (l ++ b)).isSome = true)
    {s : List Char} (h : hasPat m (pyStrip s) = true) : hasPat m s = true := by
  unfold pyStrip at h
  have h2 : hasPat m (pyStripL s) = true := by
    have hp := pyStripR_pfx (pyStripL s)
    have h3 := hasPat_append_right hmono (pyStripR (pyStripL s))
      ((pyStripL s).reverse.takeWhile pyIsSpace).reverse h
    rwa [hp] at h3
  have hq := List.takeWhile_append_dropWhile pyIsSpace s
  have h4 := hasPat_append_left m (s.takeWhile pyIsSpace) _ h2
  unfold pyStripL at h4
  rwa [hq] at h4

/-!
## Pattern-freeness of each pass's own output
-/

/-- A literal that avoids the head of the replacement and survives in a
pass output as a prefix was already a prefix of the input. -/
theorem litPfx_reSub {m : List Char → Option (List Char)} {p0 : Char} {ptail : List Char}
    (hstrict : ∀ s t, m s = some t → t.length < s.length) :
    ∀ s w, p0 ∉ w → litPfx w (reSub m (p0 :: ptail) s) = true → litPfx w s = true := by
  refine listStrongRec (fun s ih => ?_)
  intro w hw h
  cases s with
  | nil =>
    rw [reSub_nil] at h
    rw [litPfx_nil_right h]
    rfl
  | cons c r =>
    cases hm : m (c :: r) with
    | some rest =>
      have hlt := hstrict _ _ hm
      rw [reSub_cons_some hm (by simpa using hlt)] at h
      cases w with
      | nil => rfl
      | cons a w' =>
        rw [List.cons_append] at h
        simp only [litPfx, Bool.and_eq_true, decide_eq_true_eq] at h
        obtain ⟨h1, -⟩ := h
        subst h1
        exact absurd (List.mem_cons_self _ w') hw
    | none =>
      rw [reSub_cons_none hm] at h
      cases w with
      | nil => rfl
      | cons a w' =>
        simp only [litPfx, Bool.and_eq_true, decide_eq_true_eq] at h ⊢
        exact ⟨h.1, ih r (by simp) w' (fun hmem => hw (List.mem_cons_of_mem a hmem)) h.2⟩

/-- The output of the `<[^>]+>` pass contains no `<[^>]+>` match. -/
theorem not_hasPat_mTag_sub4 : ∀ s, hasPat mTag (reSub mTag [' '] s) = false := by
  refine listStrongRec (fun s ih => ?_)
  cases s with
  | nil => rw [reSub_nil]; rfl
  | cons c r =>
    cases hm : mTag (c :: r) with
    | some rest =>
      have hlt := mTag_strict hm
      rw [reSub_cons_some hm (by simpa using hlt), List.singleton_append, hasPat_cons]
      have h1 : mTag (' ' :: reSub mTag [' '] rest) = none := by
        cases hv : reSub mTag [' '] rest with
        | nil => rfl
        | cons d t =>
          rw [mTag, if_neg]
          rintro ⟨hcon, -, -⟩
          exact absurd hcon (by decide)
      rw [h1]
      simp only [Option.isSome_none, Bool.false_or]
      exact ih rest (by simpa using hlt)
    | none =>
      rw [reSub_cons_none hm, hasPat_cons]
      have h1 : mTag (c :: reSub mTag [' '] r) = none := by
        cases hv : reSub mTag [' '] r with
        | nil => rfl
        | cons d t =>
          rw [mTag, if_neg]
          rintro ⟨hc, hd, hgt⟩
          subst hc
          cases r with
          | nil => rw [reSub_nil] at hv; cases hv
          | cons e r' =>
            rw [mTag] at hm
            by_cases hcond : ('<' : Char) = '<' ∧ e ≠ '>' ∧ '>' ∈ e :: r'
            · rw [if_pos hcond] at hm; cases hm
            · push_neg at hcond
              by_cases he : e = '>'
              · subst he
                have hnone : mTag ('>' :: r') = none := by
                  cases r' with
                  | nil => rfl
                  | cons f r'' =>
                    rw [mTag, if_neg]
                    rintro ⟨h1, -, -⟩
                    exact absurd h1 (by decide)
                rw [reSub_cons_none hnone] at hv
                injection hv with hv1 _
                exact hd hv1.symm
              · have hng : '>' ∉ e :: r' := hcond rfl he
                rw [← hv] at hgt
                rcases mem_reSub (fun s t h => mTag_subset h) _ '>' hgt with hx | hx
                · exact hng hx
                · simp at hx
      rw [h1]
      simp only [Option.isSome_none, Bool.false_or]
      exact ih r (by simp)

/-- The output of the `&nbsp;` pass contains no `&nbsp;`. -/
theorem not_hasPat_mNbsp_sub5 : ∀ s, hasPat mNbsp (reSub mNbsp [' '] s) = false := by
  refine listStrongRec (fun s ih => ?_)
  cases s with
  | nil => rw [reSub_nil]; rfl
  | cons c r =>
    cases hm : mNbsp (c :: r) with
    | some rest =>
      have hlt := mNbsp_strict hm
      rw [reSub_cons_some hm (by simpa using hlt), List.singleton_append, hasPat_cons]
      have h1 : mNbsp (' ' :: reSub mNbsp [' '] rest) = none := by
        rw [mNbsp, if_neg]
        simp [litPfx]
      rw [h1]
      simp only [Option.isSome_none, Bool.false_or]
      exact ih rest (by simpa using hlt)
    | none =>
      rw [reSub_cons_none hm, hasPat_cons]
      have h1 : mNbsp (c :: reSub mNbsp [' '] r) = none := by
        rw [mNbsp]
        split
        · next hp =>
          exfalso
          simp only [litPfx, Bool.and_eq_true, decide_eq_true_eq] at hp
          have hr : litPfx ['n', 'b', 's', 'p', ';'] r = true :=
            litPfx_reSub (fun s t h => mNbsp_strict h) r _ (by decide) hp.2
          have hfull : litPfx ['&', 'n', 'b', 's', 'p', ';'] (c :: r) = true := by
            simp only [litPfx, Bool.and_eq_true, decide_eq_true_eq]
            exact ⟨hp.1, hr⟩
          rw [mNbsp, if_pos hfull] at hm
          cases hm
        · rfl
      rw [h1]
      simp only [Option.isSome_none, Bool.false_or]
      exact ih r (by simp)

/-- The `\s+\n` pass never leaves a `'\n'` inside the whitespace prefix
when the input's whitespace prefix had none. -/
theorem nl_takeWhile_reSub :
    ∀ z, '\n' ∉ z.takeWhile pyIsSpace →
      '\n' ∉ (reSub mWsNl ['\n'] z).takeWhile pyIsSpace := by
  refine listStrongRec (fun z ih => ?_)
  intro hz
  cases z with
  | nil => rw [reSub_nil]; simp [List.takeWhile]
  | cons c r =>
    by_cases hc : pyIsSpace c
    · rw [List.takeWhile_cons, if_pos hc] at hz
      have hc' : c ≠ '\n' := fun he => hz (he ▸ List.mem_cons_self _ _)
      have hr' : '\n' ∉ r.takeWhile pyIsSpace := fun hmem => hz (List.mem_cons_of_mem c hmem)
      have hm : mWsNl (c :: r) = none := by
        rw [mWsNl, if_pos hc]
        cases hli : lastNlIdx (r.takeWhile pyIsSpace) with
        | some p => exact absurd (lastNlIdx_isSome_iff.mp (by rw [hli]; rfl)) hr'
        | none => rfl
      rw [reSub_cons_none hm, List.takeWhile_cons, if_pos hc]
      intro hmem
      rcases List.mem_cons.mp hmem with h | h
      · exact hc' h.symm
      · exact ih r (by simp) hr' h
    · have hm : mWsNl (c :: r) = none := by rw [mWsNl, if_neg hc]
      rw [reSub_cons_none hm, List.takeWhile_cons, if_neg hc]
      simp

/-- The output of the `\s+\n` pass contains no `\s+\n` match. -/
theorem not_hasPat_mWsNl_sub6 : ∀ s, hasPat mWsNl (reSub mWsNl ['\n'] s) = false := by
  refine listStrongRec (fun s ih => ?_)
  cases s with
  | nil => rw [reSub_nil]; rfl
  | cons c r =>
    cases hm : mWsNl (c :: r) with
    | some rest =>
      have hlt := mWsNl_strict hm
      rw [reSub_cons_some hm (by simpa using hlt), List.singleton_append, hasPat_cons]
      have hrest : ∃ p, lastNlIdx (r.takeWhile pyIsSpace) = some p ∧ rest = r.drop (p + 1) := by
        rw [mWsNl] at hm
        split at hm
        · cases hli : lastNlIdx (r.takeWhile pyIsSpace) with
          | some p =>
            rw [hli] at hm
            refine ⟨p, rfl, ?_⟩
            injection hm with hm
            exact hm.symm
          | none => rw [hli] at hm; cases hm
        · cases hm
      obtain ⟨p, hli, hre⟩ := hrest
      have hnr : '\n' ∉ rest.takeWhile pyIsSpace := by
        subst hre
        have hp : p < (r.takeWhile pyIsSpace).length := lastNlIdx_lt hli
        have hdecomp : r.drop (p + 1) =
            (r.takeWhile pyIsSpace).drop (p + 1) ++ r.dropWhile pyIsSpace := by
          have h0 : (r.takeWhile pyIsSpace ++ r.dropWhile pyIsSpace).drop (p + 1) =
              (r.takeWhile pyIsSpace).drop (p + 1) ++ r.dropWhile pyIsSpace :=
            List.drop_append_of_le_length (by omega)
          rw [List.takeWhile_append_dropWhile] at h0
          exact h0
        have hall : ∀ x ∈ (r.takeWhile pyIsSpace).drop (p + 1), pyIsSpace x = true :=
          fun x hx => List.mem_takeWhile_imp ((List.drop_sublist _ _).subset hx)
        rw [hdecomp, takeWhile_append_all _ hall]
        intro hmem
        rcases List.mem_append.mp hmem with h | h
        · exact lastNlIdx_drop hli h
        · rw [takeWhile_dropWhile_nil] at h; simp at h
      have h1 : mWsNl ('\n' :: reSub mWsNl ['\n'] rest) = none := by
        rw [mWsNl, if_pos (by decide)]
        cases hli2 : lastNlIdx ((reSub mWsNl ['\n'] rest).takeWhile pyIsSpace) with
        | some q =>
          exact absurd (lastNlIdx_isSome_iff.mp (by rw [hli2]; rfl))
            (nl_takeWhile_reSub rest hnr)
        | none => rfl
      rw [h1]
      simp only [Option.isSome_none, Bool.false_or]
      exact ih rest (by simpa using hlt)
    | none =>
      rw [reSub_cons_none hm, hasPat_cons]
      have h1 : mWsNl (c :: reSub mWsNl ['\n'] r) = none := by
        by_cases hc : pyIsSpace c
        · rw [mWsNl, if_pos hc] at hm
          have hr' : '\n' ∉ r.takeWhile pyIsSpace := by
            cases hli : lastNlIdx (r.takeWhile pyIsSpace) with
            | some p => rw [hli] at hm; cases hm
            | none =>
              intro hmem
              have hs := lastNlIdx_isSome_iff.mpr hmem
              rw [hli] at hs
              cases hs
          rw [mWsNl, if_pos hc]
          cases hli2 : lastNlIdx ((reSub mWsNl ['\n'] r).takeWhile pyIsSpace) with
          | some q =>
            exact absurd (lastNlIdx_isSome_iff.mp (by rw [hli2]; rfl))
              (nl_takeWhile_reSub r hr')
          | none => rfl
        · rw [mWsNl, if_neg hc]
      rw [h1]
      simp only [Option.isSome_none, Bool.false_or]
      exact ih r (by simp)

/-!
## The later passes create no `<[^>]+>` or `&nbsp;` matches
-/

theorem mTag_some_facts {a : Char} {r : List Char} (h : (mTag (a :: r)).isSome = true) :
    a = '<' ∧ ∃ d t', r = d :: t' ∧ d ≠ '>' ∧ '>' ∈ d :: t' := by
  cases r with
  | nil => simp [mTag] at h
  | cons d t' =>
    rw [mTag] at h
    split at h
    · next hc => exact ⟨hc.1, d, t', rfl, hc.2.1, hc.2.2⟩
    · simp at h

theorem mNbsp_drop {s t : List Char} (h : mNbsp s = some t) : ∃ n, t = s.drop n := by
  unfold mNbsp at h
  split at h
  · injection h with h
    exact ⟨6, h.symm⟩
  · cases h

theorem mNbsp_head {e : Char} {r' t : List Char} (h : mNbsp (e :: r') = some t) : e ≠ '>' := by
  unfold mNbsp at h
  split at h
  · next hp =>
    simp only [litPfx, Bool.and_eq_true, decide_eq_true_eq] at hp
    rw [← hp.1]
    decide
  · cases h

theorem mWsNl_drop {s t : List Char} (h : mWsNl s = some t) : ∃ n, t = s.drop n := by
  match s with
  | [] => simp [mWsNl] at h
  | c :: r =>
    rw [mWsNl] at h
    split at h
    · split at h
      · next p _ =>
        injection h with h
        exact ⟨p + 2, by rw [← h, List.drop_succ_cons]⟩
      · cases h
    · cases h

theorem mWsNl_head {e : Char} {r' t : List Char} (h : mWsNl (e :: r') = some t) : e ≠ '>' := by
  rw [mWsNl] at h
  split at h
  · next hc =>
    intro he
    subst he
    simp [pyIsSpace] at hc
  · cases h

/-- Passes whose matches only consume a suffix-shaped remainder, never
produce `<` or `>` in their replacement, and never start a match at `>`,
preserve `<[^>]+>`-freeness. -/
theorem hasPat_mTag_reSub_of {B : List Char → Option (List Char)} {rb : Char}
    (hBstrict : ∀ s t, B s = some t → t.length < s.length)
    (hBsubset : ∀ s t, B s = some t → ∀ x, x ∈ t → x ∈ s)
    (hBdrop : ∀ s t, B s = some t → ∃ n, t = s.drop n)
    (hBhead : ∀ e r' t, B (e :: r') = some t → e ≠ '>')
    (hrb1 : rb ≠ '<') (hrb2 : rb ≠ '>') :
    ∀ s, hasPat mTag (reSub B [rb] s) = true → hasPat mTag s = true := by
  refine listStrongRec (fun s ih => ?_)
  intro h
  cases s with
  | nil => rw [reSub_nil] at h; simp [hasPat_nil] at h
  | cons c r =>
    cases hm : B (c :: r) with
    | some rest =>
      have hlt := hBstrict _ _ hm
      rw [reSub_cons_some hm (by simpa using hlt), List.singleton_append, hasPat_cons] at h
      rcases Bool.or_eq_true_iff.mp h with h | h
      · obtain ⟨he, -⟩ := mTag_some_facts h
        exact absurd he hrb1
      · have hres := ih rest (by simpa using hlt) h
        obtain ⟨n, hn⟩ := hBdrop _ _ hm
        rw [hn] at hres
        exact hasPat_drop n _ hres
    | none =>
      rw [reSub_cons_none hm, hasPat_cons] at h
      rw [hasPat_cons]
      rcases Bool.or_eq_true_iff.mp h with h | h
      · obtain ⟨he, d, t', hout, hd, hgt⟩ := mTag_some_facts h
        subst he
        cases r with
        | nil => rw [reSub_nil] at hout; cases hout
        | cons e r' =>
          refine Bool.or_eq_true_iff.mpr (Or.inl ?_)
          cases hm2 : B (e :: r') with
          | some rest2 =>
            have hlt2 := hBstrict _ _ hm2
            rw [reSub_cons_some hm2 (by simpa using hlt2), List.singleton_append] at hout
            injection hout with hd1 ht1
            have he2 : e ≠ '>' := hBhead _ _ _ hm2
            have hgt2 : '>' ∈ e :: r' := by
              rcases List.mem_cons.mp hgt with hx | hx
              · exact absurd (hd1 ▸ hx.symm) hrb2
              · rw [← ht1] at hx
                rcases mem_reSub hBsubset _ '>' hx with hy | hy
                · exact hBsubset _ _ hm2 '>' hy
                · simp at hy
                  exact absurd hy.symm hrb2
            exact mTag_isSome_of he2 hgt2
          | none =>
            rw [reSub_cons_none hm2] at hout
            injection hout with hd1 ht1
            subst hd1
            have hgt2 : '>' ∈ e :: r' := by
              rcases List.mem_cons.mp hgt with hx | hx
              · exact absurd hx.symm hd
              · rw [← ht1] at hx
                rcases mem_reSub hBsubset _ '>' hx with hy | hy
                · exact List.mem_cons_of_mem e hy
                · simp at hy
                  exact absurd hy.symm hrb2
            exact mTag_isSome_of hd hgt2
      · exact Bool.or_eq_true_iff.mpr (Or.inr (ih r (by simp) h))

theorem hasPat_mTag_reSub_mNbsp {s : List Char}
    (h : hasPat mTag (reSub mNbsp [' '] s) = true) : hasPat mTag s = true :=
  hasPat_mTag_reSub_of (fun _ _ hh => mNbsp_strict hh) (fun _ _ hh => mNbsp_subset hh)
    (fun _ _ hh => mNbsp_drop hh) (fun _ _ _ hh => mNbsp_head hh)
    (by decide) (by decide) s h

theorem hasPat_mTag_reSub_mWsNl {s : List Char}
    (h : hasPat mTag (reSub mWsNl ['\n'] s) = true) : hasPat mTag s = true :=
  hasPat_mTag_reSub_of (fun _ _ hh => mWsNl_strict hh) (fun _ _ hh => mWsNl_subset hh)
    (fun _ _ hh => mWsNl_drop hh) (fun _ _ _ hh => mWsNl_head hh)
    (by decide) (by decide) s h

theorem hasPat_mNbsp_reSub_mWsNl :
    ∀ s, hasPat mNbsp (reSub mWsNl ['\n'] s) = true → hasPat mNbsp s = true := by
  refine listStrongRec (fun s ih => ?_)
  intro h
  cases s with
  | nil => rw [reSub_nil] at h; simp [hasPat_nil] at h
  | cons c r =>
    cases hm : mWsNl (c :: r) with
    | some rest =>
      have hlt := mWsNl_strict hm
      rw [reSub_cons_some hm (by simpa using hlt), List.singleton_append, hasPat_cons] at h
      rcases Bool.or_eq_true_iff.mp h with h | h
      · simp [mNbsp, litPfx] at h
      · have hres := ih rest (by simpa using hlt) h
        obtain ⟨n, hn⟩ := mWsNl_drop hm
        rw [hn] at hres
        exact hasPat_drop n _ hres
    | none =>
      rw [reSub_cons_none hm, hasPat_cons] at h
      rw [hasPat_cons]
      rcases Bool.or_eq_true_iff.mp h with h | h
      · rw [mNbsp] at h
        refine Bool.or_eq_true_iff.mpr (Or.inl ?_)
        split at h
        · next hp =>
          simp only [litPfx, Bool.and_eq_true, decide_eq_true_eq] at hp
          have hr : litPfx ['n', 'b', 's', 'p', ';'] r = true :=
            litPfx_reSub (fun _ _ hh => mWsNl_strict hh) r _ (by decide) hp.2
          have hfull : litPfx ['&', 'n', 'b', 's', 'p', ';'] (c :: r) = true := by
            simp only [litPfx, Bool.and_eq_true, decide_eq_true_eq]
            exact ⟨hp.1, hr⟩
          rw [mNbsp, if_pos hfull]
          rfl
        · simp at h
      · exact Bool.or_eq_true_iff.mpr (Or.inr (ih r (by simp) h))

/-!
## Assembling idempotence of `html_to_text`
-/

theorem bool_imp_false {a b : Bool} (h : a = true → b = true) (hb : b = false) :
    a = false := by
  cases ha : a
  · rfl
  · rw [h ha] at hb; cases hb

/-- The pipeline's output is tag-free, `&nbsp;`-free, `\s+\n`-free and
stripped. -/
theorem htmlToTextL_props (l : List Char) :
    hasPat mTag (htmlToTextL l) = false ∧ hasPat mNbsp (htmlToTextL l) = false ∧
    hasPat mWsNl (htmlToTextL l) = false ∧ pyStrip (htmlToTextL l) = htmlToTextL l := by
  unfold htmlToTextL
  generalize reSub mPClose ['\n'] (reSub mBr ['\n'] (reSub mScript [' '] l)) = z3
  have h4 : hasPat mTag (reSub mTag [' '] z3) = false := not_hasPat_mTag_sub4 z3
  have h5 : hasPat mNbsp (reSub mNbsp [' '] (reSub mTag [' '] z3)) = false :=
    not_hasPat_mNbsp_sub5 (reSub mTag [' '] z3)
  have h4b : hasPat mTag (reSub mNbsp [' '] (reSub mTag [' '] z3)) = false :=
    bool_imp_false (fun hh => hasPat_mTag_reSub_mNbsp hh) h4
  generalize hz5 : reSub mNbsp [' '] (reSub mTag [' '] z3) = z5 at h5 h4b
  have h6 : hasPat mWsNl (reSub mWsNl ['\n'] z5) = false := not_hasPat_mWsNl_sub6 z5
  have h4c : hasPat mTag (reSub mWsNl ['\n'] z5) = false :=
    bool_imp_false (fun hh => hasPat_mTag_reSub_mWsNl hh) h4b
  have h5b : hasPat mNbsp (reSub mWsNl ['\n'] z5) = false :=
    bool_imp_false (hasPat_mNbsp_reSub_mWsNl z5) h5
  generalize hz6 : reSub mWsNl ['\n'] z5 = z6 at h6 h4c h5b
  have h7 : hasPat mNl3 z6 = false :=
    bool_imp_false (hasPat_of_hasPat (fun _ hh => mNl3_imp_mWsNl hh) z6) h6
  rw [reSub_of_not_hasPat _ h7]
  refine ⟨?_, ?_, ?_, pyStrip_idem z6⟩
  · exact bool_imp_false (hasPat_pyStrip mTag_mono) h4c
  · exact bool_imp_false (hasPat_pyStrip mNbsp_mono) h5b
  · exact bool_imp_false (hasPat_pyStrip mWsNl_mono) h6

/-- The pipeline is the identity on any text with the output
properties. -/
theorem htmlToTextL_fix {y : List Char}
    (h4 : hasPat mTag y = false) (h5 : hasPat mNbsp y = false)
    (h6 : hasPat mWsNl y = false) (hstr : pyStrip y = y) :
    htmlToTextL y = y := by
  have h1 : hasPat mScript y = false :=
    bool_imp_false (hasPat_of_hasPat (fun _ hh => mScript_imp_mTag hh) y) h4
  have h2 : hasPat mBr y = false :=
    bool_imp_false (hasPat_of_hasPat (fun _ hh => mBr_imp_mTag hh) y) h4
  have h3 : hasPat mPClose y = false :=
    bool_imp_false (hasPat_of_hasPat (fun _ hh => mPClose_imp_mTag hh) y) h4
  have h7 : hasPat mNl3 y = false :=
    bool_imp_false (hasPat_of_hasPat (fun _ hh => mNl3_imp_mWsNl hh) y) h6
  unfold htmlToTextL
  rw [reSub_of_not_hasPat _ h1, reSub_of_not_hasPat _ h2, reSub_of_not_hasPat _ h3,
    reSub_of_not_hasPat _ h4, reSub_of_not_hasPat _ h5, reSub_of_not_hasPat _ h6,
    reSub_of_not_hasPat _ h7, hstr]

theorem htmlToTextL_idem (l : List Char) :
    htmlToTextL (htmlToTextL l) = htmlToTextL l := by
  obtain ⟨h4, h5, h6, hstr⟩ := htmlToTextL_props l
  exact htmlToTextL_fix h4 h5 h6 hstr

/-- C7: Normalizer idempotence — for every input string `x`,
`html_to_text (html_to_text x) = html_to_text x`.  The normalizer is a
total function (it always returns a string, never raising), and it
returns the empty string for empty input. -/
theorem html_to_text_eq (s : String) : html_to_text s = ⟨htmlToTextL s.data⟩ := rfl

theorem html_to_text_data (s : String) : (html_to_text s).data = htmlToTextL s.data := by
  rw [html_to_text_eq]

theorem C7_normalizer_idempotent :
    (∀ x : String, html_to_text (html_to_text x) = html_to_text x) ∧
    html_to_text "" = "" := by
  constructor
  · intro x
    rw [html_to_text_eq (html_to_text x), html_to_text_data, htmlToTextL_idem,
      html_to_text_eq x]
  · decide

/-!
## The merge loop of `main`
-/

theorem runMerge_nil (seen : Finset String) : runMerge seen [] = (seen, []) := rfl

theorem runMerge_cons_discard {seen : Finset String} {item : Event} {rest : List Event}
    (h : eventKey item = "" ∨ eventKey item ∈ seen) :
    runMerge seen (item :: rest) = runMerge seen rest := by
  rw [runMerge, if_pos h]

theorem runMerge_cons_fresh {seen : Finset String} {item : Event} {rest : List Event}
    (h : ¬(eventKey item = "" ∨ eventKey item ∈ seen)) :
    runMerge seen (item :: rest) =
      ((runMerge (insert (eventKey item) seen) rest).1,
        item :: (runMerge (insert (eventKey item) seen) rest).2) := by
  rw [runMerge, if_neg h]

theorem runMerge_seen_mono : ∀ (items : List Event) (seen : Finset String),
    seen ⊆ (runMerge seen items).1 := by
  intro items
  induction items with
  | nil => intro seen; rw [runMerge_nil]
  | cons item rest ih =>
    intro seen
    by_cases h : eventKey item = "" ∨ eventKey item ∈ seen
    · rw [runMerge_cons_discard h]; exact ih seen
    · rw [runMerge_cons_fresh h]
      exact (Finset.subset_insert _ _).trans (ih (insert (eventKey item) seen))

theorem runMerge_adm : ∀ (items : List Event) (seen : Finset String) (e : Event),
    e ∈ (runMerge seen items).2 →
    eventKey e ≠ "" ∧ eventKey e ∉ seen ∧ eventKey e ∈ (runMerge seen items).1 := by
  intro items
  induction items with
  | nil => intro seen e he; rw [runMerge_nil] at he; simp at he
  | cons item rest ih =>
    intro seen e he
    by_cases h : eventKey item = "" ∨ eventKey item ∈ seen
    · rw [runMerge_cons_discard h] at he ⊢
      exact ih seen e he
    · rw [runMerge_cons_fresh h] at he ⊢
      push_neg at h
      rcases List.mem_cons.mp he with he | he
      · subst he
        exact ⟨h.1, h.2,
          runMerge_seen_mono rest _ (Finset.mem_insert_self _ _)⟩
      · obtain ⟨h1, h2, h3⟩ := ih (insert (eventKey item) seen) e he
        exact ⟨h1, fun hmem => h2 (Finset.mem_insert_of_mem hmem), h3⟩

theorem runMerge_nodup : ∀ (items : List Event) (seen : Finset String),
    ((runMerge seen items).2.map eventKey).Nodup := by
  intro items
  induction items with
  | nil => intro seen; rw [runMerge_nil]; exact List.nodup_nil
  | cons item rest ih =>
    intro seen
    by_cases h : eventKey item = "" ∨ eventKey item ∈ seen
    · rw [runMerge_cons_discard h]; exact ih seen
    · rw [runMerge_cons_fresh h]
      rw [List.map_cons, List.nodup_cons]
      refine ⟨?_, ih (insert (eventKey item) seen)⟩
      intro hmem
      obtain ⟨e, he, hk⟩ := List.mem_map.mp hmem
      obtain ⟨-, h2, -⟩ := runMerge_adm rest (insert (eventKey item) seen) e he
      exact h2 (hk ▸ Finset.mem_insert_self _ _)

theorem runMerge_key_mem : ∀ (items : List Event) (seen : Finset String) (item : Event),
    item ∈ items → eventKey item ≠ "" → eventKey item ∈ (runMerge seen items).1 := by
  intro items
  induction items with
  | nil => intro seen item h; simp at h
  | cons i rest ih =>
    intro seen item hmem hne
    by_cases h : eventKey i = "" ∨ eventKey i ∈ seen
    · rw [runMerge_cons_discard h]
      rcases List.mem_cons.mp hmem with he | he
      · subst he
        rcases h with h | h
        · exact absurd h hne
        · exact runMerge_seen_mono rest seen h
      · exact ih seen item he hne
    · rw [runMerge_cons_fresh h]
      rcases List.mem_cons.mp hmem with he | he
      · subst he
        exact runMerge_seen_mono rest _ (Finset.mem_insert_self _ _)
      · exact ih _ item he hne

theorem runMerge_all_seen : ∀ (items : List Event) (seen : Finset String),
    (∀ i ∈ items, eventKey i = "" ∨ eventKey i ∈ seen) →
    runMerge seen items = (seen, []) := by
  intro items
  induction items with
  | nil => intro seen _; rfl
  | cons i rest ih =>
    intro seen h
    rw [runMerge_cons_discard (h i (List.mem_cons_self i rest))]
    exact ih seen (fun j hj => h j (List.mem_cons_of_mem i hj))

/-!
## One run (`runOnce`) and run sequences
-/

theorem runOnce_seen (st : StoreState) (items : List Event) :
    (runOnce st items).1.seen = (runMerge st.seen items).1 := rfl

theorem runOnce_adm (st : StoreState) (items : List Event) :
    (runOnce st items).2 = (runMerge st.seen items).2 := rfl

theorem runOnce_ledger (st : StoreState) (items : List Event) :
    (runOnce st items).1.ledger =
      ((runMerge st.seen items).2 ++ st.ledger).take MAX_EVENTS := by
  show (if (runMerge st.seen items).2.isEmpty then st.ledger
    else (runMerge st.seen items).2 ++ st.ledger).take MAX_EVENTS = _
  by_cases h : (runMerge st.seen items).2.isEmpty
  · rw [if_pos h, List.isEmpty_iff.mp h, List.nil_append]
  · rw [if_neg h]

theorem runOnce_len (st : StoreState) (items : List Event) :
    (runOnce st items).1.ledger.length ≤ MAX_EVENTS := by
  rw [runOnce_ledger, List.length_take]
  exact min_le_left _ _

theorem runOnce_ledger_sub {st : StoreState} {items : List Event} {e : Event}
    (h : e ∈ (runOnce st items).1.ledger) :
    e ∈ (runMerge st.seen items).2 ∨ e ∈ st.ledger := by
  rw [runOnce_ledger] at h
  exact List.mem_append.mp ((List.take_sublist _ _).subset h)

theorem runOnce_inv {st : StoreState} {items : List Event} (h : LedgerInv st) :
    LedgerInv (runOnce st items).1 := by
  intro e he
  rw [runOnce_seen]
  rcases runOnce_ledger_sub he with he | he
  · exact (runMerge_adm items st.seen e he).2.2
  · exact runMerge_seen_mono items st.seen (h e he)

theorem runsFold_seen_mono (st : StoreState) :
    ∀ css : List (List Event), st.seen ⊆ (runsFold st css).seen := by
  intro css
  induction css generalizing st with
  | nil => exact fun x hx => hx
  | cons items rest ih =>
    rw [runsFold]
    refine Finset.Subset.trans ?_ (ih (runOnce st items).1)
    rw [runOnce_seen]
    exact runMerge_seen_mono items st.seen

/-- An event whose key is already seen and which is not in the ledger can
never enter any later ledger. -/
theorem ledger_persist {e : Event} :
    ∀ (css : List (List Event)) (st : StoreState),
      eventKey e ∈ st.seen → e ∉ st.ledger → e ∉ (runsFold st css).ledger := by
  intro css
  induction css with
  | nil => intro st _ h; exact h
  | cons items rest ih =>
    intro st hseen hnot
    rw [runsFold]
    refine ih (runOnce st items).1 ?_ ?_
    · rw [runOnce_seen]; exact runMerge_seen_mono items st.seen hseen
    · intro hmem
      rcases runOnce_ledger_sub hmem with hmem | hmem
      · exact (runMerge_adm items st.seen e hmem).2.1 hseen
      · exact hnot hmem

theorem allAdmitted_not_seen :
    ∀ (css : List (List Event)) (st : StoreState) (e : Event),
      e ∈ allAdmitted st css → eventKey e ∉ st.seen := by
  intro css
  induction css with
  | nil => intro st e he; simp [allAdmitted] at he
  | cons items rest ih =>
    intro st e he
    rw [allAdmitted] at he
    rcases List.mem_append.mp he with he | he
    · rw [runOnce_adm] at he
      exact (runMerge_adm items st.seen e he).2.1
    · intro hseen
      refine ih (runOnce st items).1 e he ?_
      rw [runOnce_seen]
      exact runMerge_seen_mono items st.seen hseen

theorem allAdmitted_nodup :
    ∀ (css : List (List Event)) (st : StoreState),
      ((allAdmitted st css).map eventKey).Nodup := by
  intro css
  induction css with
  | nil => intro st; exact List.nodup_nil
  | cons items rest ih =>
    intro st
    rw [allAdmitted, List.map_append]
    refine List.Nodup.append ?_ (ih (runOnce st items).1) ?_
    · rw [runOnce_adm]; exact runMerge_nodup items st.seen
    · intro k hk1 hk2
      obtain ⟨e1, he1, hk1⟩ := List.mem_map.mp hk1
      obtain ⟨e2, he2, hk2⟩ := List.mem_map.mp hk2
      rw [runOnce_adm] at he1
      have h1 : eventKey e1 ∈ (runOnce st items).1.seen := by
        rw [runOnce_seen]
        exact (runMerge_adm items st.seen e1 he1).2.2
      have h2 := allAdmitted_not_seen rest (runOnce st items).1 e2 he2
      rw [hk1, ← hk2] at h1
      exact h2 h1

/-- C1: the merge step of `main` keys each candidate by link, falling
back to title; a candidate with an empty or already-seen key is
discarded with no mutation; admitted candidates have fresh nonempty keys
and are pairwise distinct by key; and across any sequence of runs each
key is admitted at most once, with all admitted keys disjoint from the
initial seen-set. -/
theorem C1_merge_dedup :
    (∀ (seen : Finset String) (item : Event) (rest : List Event),
      eventKey item = "" ∨ eventKey item ∈ seen →
      runMerge seen (item :: rest) = runMerge seen rest) ∧
    (∀ (seen : Finset String) (items : List Event) (e : Event),
      e ∈ (runMerge seen items).2 → eventKey e ≠ "" ∧ eventKey e ∉ seen) ∧
    (∀ (seen : Finset String) (items : List Event),
      ((runMerge seen items).2.map eventKey).Nodup) ∧
    (∀ (st : StoreState) (css : List (List Event)),
      ((allAdmitted st css).map eventKey).Nodup ∧
      ∀ e ∈ allAdmitted st css, eventKey e ∉ st.seen) := by
  refine ⟨fun seen item rest h => runMerge_cons_discard h,
    fun seen items e he => ?_,
    fun seen items => runMerge_nodup items seen,
    fun st css => ⟨allAdmitted_nodup css st, fun e he => allAdmitted_not_seen css st e he⟩⟩
  obtain ⟨h1, h2, -⟩ := runMerge_adm items seen e he
  exact ⟨h1, h2⟩

theorem C1_merge_dedup_witness :
    runMerge ({"https://example.org/a"} : Finset String) [evA, evB] =
      runMerge {"https://example.org/a"} [evB] ∧
    (eventKey evB ≠ "" ∧ eventKey evB ∉ ({"https://example.org/a"} : Finset String)) := by
  constructor
  · exact C1_merge_dedup.1 _ evA [evB] (by decide)
  · exact C1_merge_dedup.2.1 _ [evA, evB] evB (by decide)

/-- C2: after every run the persisted ledger is the admitted events
prepended to the prior ledger, truncated to the first `MAX_EVENTS`
entries, so its length never exceeds `MAX_EVENTS`; seen keys stay in the
seen-set across all later runs; and under the seen-set invariant an
event dropped from the ledger by truncation never reappears in any later
ledger. -/
theorem C2_retention_cap :
    (∀ (st : StoreState) (items : List Event),
      (runOnce st items).1.ledger =
        ((runMerge st.seen items).2 ++ st.ledger).take MAX_EVENTS) ∧
    (∀ (st : StoreState) (items : List Event),
      (runOnce st items).1.ledger.length ≤ MAX_EVENTS) ∧
    (∀ (st : StoreState) (css : List (List Event)), st.seen ⊆ (runsFold st css).seen) ∧
    (∀ (st : StoreState) (items : List Event) (css : List (List Event)) (e : Event),
      LedgerInv st → e ∈ st.ledger → e ∉ (runOnce st items).1.ledger →
      e ∉ (runsFold (runOnce st items).1 css).ledger) := by
  refine ⟨runOnce_ledger, runOnce_len, fun st css => runsFold_seen_mono st css, ?_⟩
  intro st items css e hinv hmem hdrop
  refine ledger_persist css (runOnce st items).1 ?_ hdrop
  rw [runOnce_seen]
  exact runMerge_seen_mono items st.seen (hinv e hmem)

theorem C2_retention_cap_witness :
    LedgerInv stFull ∧ evA ∈ stFull.ledger ∧ evA ∉ (runOnce stFull []).1.ledger ∧
    evA ∉ (runsFold (runOnce stFull []).1 []).ledger := by
  have hsl : stFull.ledger = List.replicate 2000 evF ++ [evA] := rfl
  have h1 : LedgerInv stFull := by
    intro e he
    rw [hsl] at he
    rcases List.mem_append.mp he with he | he
    · rw [List.eq_of_mem_replicate he]
      decide
    · rw [List.mem_singleton.mp he]
      decide
  have h2 : evA ∈ stFull.ledger := by
    rw [hsl]
    exact List.mem_append_right _ (List.mem_singleton.mpr rfl)
  have h3 : evA ∉ (runOnce stFull []).1.ledger := by
    have hl : (runOnce stFull []).1.ledger = List.replicate 2000 evF := by
      rw [runOnce_ledger, show (runMerge stFull.seen []).2 = [] from rfl,
        List.nil_append, hsl,
        show MAX_EVENTS = (List.replicate 2000 evF).length from by
          rw [List.length_replicate]; rfl]
      exact List.take_left _ _
    rw [hl]
    intro hmem
    exact absurd (List.eq_of_mem_replicate hmem) (by decide)
  exact ⟨h1, h2, h3, C2_retention_cap.2.2.2 stFull [] [] evA h1 h2 h3⟩

/-- C3: re-running the merge against candidates with the same titles and
links admits zero events and leaves the seen-set and ledger unchanged. -/
theorem C3_idempotent_rerun (st : StoreState) (items items' : List Event)
    (h : items'.map (fun e => (e.title, e.link)) = items.map (fun e => (e.title, e.link))) :
    (runOnce (runOnce st items).1 items').2 = [] ∧
    (runOnce (runOnce st items).1 items').1 = (runOnce st items).1 := by
  have hall : ∀ i' ∈ items', eventKey i' = "" ∨ eventKey i' ∈ (runOnce st items).1.seen := by
    intro i' hi'
    by_cases hne : eventKey i' = ""
    · exact Or.inl hne
    · refine Or.inr ?_
      have hmem : (i'.title, i'.link) ∈ items.map (fun e => (e.title, e.link)) := by
        rw [← h]
        exact List.mem_map_of_mem _ hi'
      obtain ⟨i, hi, hpair⟩ := List.mem_map.mp hmem
      simp only [Prod.mk.injEq] at hpair
      have hkey : eventKey i = eventKey i' := by
        unfold eventKey
        rw [hpair.1, hpair.2]
      rw [runOnce_seen, ← hkey]
      exact runMerge_key_mem items st.seen i hi (by rw [hkey]; exact hne)
  have hmerge : runMerge (runOnce st items).1.seen items' = ((runOnce st items).1.seen, []) :=
    runMerge_all_seen items' _ hall
  constructor
  · rw [runOnce_adm, hmerge]
  · have hledger : (runOnce (runOnce st items).1 items').1.ledger =
        (runOnce st items).1.ledger := by
      rw [runOnce_ledger, hmerge, List.nil_append]
      exact List.take_of_length_le (runOnce_len st items)
    have hseen : (runOnce (runOnce st items).1 items').1.seen =
        (runOnce st items).1.seen := by
      rw [runOnce_seen, hmerge]
    have hmk : (runOnce (runOnce st items).1 items').1 =
        ⟨(runOnce (runOnce st items).1 items').1.seen,
          (runOnce (runOnce st items).1 items').1.ledger⟩ := rfl
    rw [hmk, hseen, hledger]

theorem C3_idempotent_rerun_witness :
    (runOnce (runOnce ⟨∅, []⟩ [evA, evC]).1 [evA, evC]).2 = [] ∧
    (runOnce (runOnce ⟨∅, []⟩ [evA, evC]).1 [evA, evC]).1 = (runOnce ⟨∅, []⟩ [evA, evC]).1 :=
  C3_idempotent_rerun ⟨∅, []⟩ [evA, evC] [evA, evC] rfl

/-!
## `main` with failing collectors (C4, C6)
-/

/-- C4 counterexample: with the SEC primary feed failing and the DE
collector ready to return one event, the run does not continue — the
error propagates out of `main`, nothing is persisted, and the DE event
never reaches the ledger.  This refutes the claim that one region's
outage never blocks the other region's collection and persistence. -/
theorem C4_counterexample :
    mainFS fs0 (Except.error "ConnectionError") (Except.ok [evDE]) =
      (fs0, Except.error "ConnectionError") ∧
    evDE ∉ (mainFS fs0 (Except.error "ConnectionError") (Except.ok [evDE])).1.data_json :=
  ⟨rfl, by decide⟩

/-- C4 amended: a transport failure on either primary feed aborts the
entire run before any merging or persistence — the error propagates, the
other region's results for that run are not persisted, and the prior
persisted files are left untouched. -/
theorem C4_primary_failure_aborts_run :
    (∀ (fs : FS) (e : String) (de : Except String (List Event)),
      mainFS fs (Except.error e) de = (fs, Except.error e)) ∧
    (∀ (fs : FS) (s : List Event) (e : String),
      mainFS fs (Except.ok s) (Except.error e) = (fs, Except.error e)) :=
  ⟨fun _ _ _ => rfl, fun _ _ _ => rfl⟩

/-- C6: `main` writes no persisted file before all collection has
completed, so if either collector raises, the run ends with the error
and every persisted file is exactly as before the run. -/
theorem C6_all_or_nothing (fs : FS) (secRes deRes : Except String (List Event))
    (h : (∃ e, secRes = Except.error e) ∨ ∃ e, deRes = Except.error e) :
    (mainFS fs secRes deRes).1 = fs ∧ ∃ e, (mainFS fs secRes deRes).2 = Except.error e := by
  cases secRes with
  | error e => exact ⟨rfl, e, rfl⟩
  | ok s =>
    cases deRes with
    | error e => exact ⟨rfl, e, rfl⟩
    | ok d => rcases h with ⟨e, he⟩ | ⟨e, he⟩ <;> cases he

theorem C6_all_or_nothing_witness :
    (mainFS fs0 (Except.ok [evA]) (Except.error "Timeout")).1 = fs0 ∧
    ∃ e, (mainFS fs0 (Except.ok [evA]) (Except.error "Timeout")).2 = Except.error e :=
  C6_all_or_nothing fs0 (Except.ok [evA]) (Except.error "Timeout") (Or.inr ⟨"Timeout", rfl⟩)

/-!
## `collect_de` (C5, C10)
-/

/-- C5: the per-item document fetch in `collect_de` is not wrapped in
any `try`, so a raised transport error propagates and aborts the whole
collector — the kept item's event is not emitted — while a non-ok HTTP
status does degrade gracefully to an event with empty `buyer` and
`percent`.  The first conjunct evaluates the code at the failing input
of the claim; the second shows the only degradation the code actually
implements. -/
theorem C5_secondary_fetch_fatal :
    collect_de [entryDE] (fun _ => Except.error "ConnectionError") "t0" =
      Except.error "ConnectionError" ∧
    collect_de [entryDE] (fun _ => Except.ok ⟨false, "irrelevant"⟩) "t0" =
      Except.ok [⟨"t0", "DE", "DeutscheBoerseRSS", "Stimmrechte", "", "Foo AG", "",
        "EQS-Stimmrechte: Foo AG - X", "https://example.org/1"⟩] := by
  constructor
  · rfl
  · rfl

/-- C10: the stored `percent` is `str(float(...))` of the parsed value,
not the source text — `"neu 3,10 %"` is stored as `"3.1"` (trailing zero
dropped) and `"neu 5 %"` as `"5.0"` (integers gain `.0`). -/
theorem C10_percent_formatting :
    collect_de [entryDE] (fun _ => Except.ok ⟨true, "neu 3,10 %"⟩) "t0" =
      Except.ok [⟨"t0", "DE", "DeutscheBoerseRSS", "Stimmrechte", "", "Foo AG", "3.1",
        "EQS-Stimmrechte: Foo AG - X", "https://example.org/1"⟩] ∧
    collect_de [entryDE] (fun _ => Except.ok ⟨true, "neu 5 %"⟩) "t0" =
      Except.ok [⟨"t0", "DE", "DeutscheBoerseRSS", "Stimmrechte", "", "Foo AG", "5.0",
        "EQS-Stimmrechte: Foo AG - X", "https://example.org/1"⟩] := by
  constructor
  · rfl
  · rfl

/-!
## `de_parse_percent_new` (C8)
-/

theorem dePercGo_none : ∀ ls : List (List Char),
    (∀ line ∈ ls, litPfx ['n', 'e', 'u', ' '] ((pyStrip line).map pyLowerChar) = false) →
    dePercGo ls = none := by
  intro ls
  induction ls with
  | nil => intro _; rfl
  | cons line rest ih =>
    intro h
    rw [dePercGo, if_neg (by simp [h line (List.mem_cons_self line rest)])]
    exact ih (fun l hl => h l (List.mem_cons_of_mem _ hl))

/-- C8: on a line `"neu 3,04 % 0,00 % 3,04 % 800.000.000"` the extractor
returns the last percentage token, comma normalized to a dot, parsed
as the exact value `3.04`; a `neu` line without a percentage, or a text
without a qualifying line, yields `None` instead of raising. -/
theorem C8_percent_extraction :
    de_parse_percent_new "Mitteilung\nneu 3,04 % 0,00 % 3,04 % 800.000.000\nEnde" =
      some (mkRat 304 100) ∧
    de_parse_percent_new "neu keine Prozentzahl" = none ∧
    (∀ text : String,
      (∀ line ∈ pySplitlines text.data,
        litPfx ['n', 'e', 'u', ' '] ((pyStrip line).map pyLowerChar) = false) →
      de_parse_percent_new text = none) := by
  refine ⟨by decide, by decide, ?_⟩
  intro text h
  unfold de_parse_percent_new
  exact dePercGo_none _ h

theorem C8_percent_extraction_witness :
    de_parse_percent_new "keine Zeile davon" = none :=
  C8_percent_extraction.2.2 "keine Zeile davon" (by decide)

/-!
## `de_extract_issuer_from_title` (C9)
-/

theorem searchIssuer_none : ∀ l : List Char,
    containsLit ['S', 't', 'i', 'm', 'm', 'r', 'e', 'c', 'h', 't', 'e'] l = false →
    searchIssuer l = none := by
  intro l
  induction l with
  | nil => intro _; rfl
  | cons c r ih =>
    intro h
    rw [containsLit, Bool.or_eq_false_iff] at h
    have hm : matchIssuerAt (c :: r) = none := by
      rw [matchIssuerAt, if_neg]
      simp [h.1]
    rw [searchIssuer, hm]
    exact ih h.2

/-- C9 counterexample: the terminator `\s+\|` requires whitespace before
the pipe, so for the title `"EQS-Stimmrechte: Foo|Bar"` the extractor
returns `"Foo|Bar"`, not `"Foo"` as the claim's "first following `|`
character" reading demands. -/
theorem C9_counterexample :
    de_extract_issuer_from_title "EQS-Stimmrechte: Foo|Bar" = "Foo|Bar" ∧
    de_extract_issuer_from_title "EQS-Stimmrechte: Foo|Bar" ≠ "Foo" := by
  constructor
  · decide
  · decide

/-- C9 amended: the extractor returns the text between the label and the
first following whitespace-surrounded `-` or whitespace-preceded `|` or
end of string, trimmed; the cited example yields `"Beispiel AG"`, a
whitespace-preceded pipe terminates the issuer, and a title without the
label yields the empty string. -/
theorem C9_issuer_extraction :
    de_extract_issuer_from_title "EQS-Stimmrechte: Beispiel AG - Veröffentlichung" =
      "Beispiel AG" ∧
    de_extract_issuer_from_title "EQS-Stimmrechte: Foo |Bar" = "Foo" ∧
    (∀ t : String,
      containsLit ['S', 't', 'i', 'm', 'm', 'r', 'e', 'c', 'h', 't', 'e'] t.data = false →
      de_extract_issuer_from_title t = "") := by
  refine ⟨by decide, by decide, ?_⟩
  intro t ht
  unfold de_extract_issuer_from_title
  rw [searchIssuer_none t.data ht]
  decide

theorem C9_issuer_extraction_witness :
    de_extract_issuer_from_title "Mitteilung ohne Marker" = "" :=
  C9_issuer_extraction.2.2 "Mitteilung ohne Marker" (by decide)

end StakeWatch
